import Mathlib

/-!
Verification of the upstream-version derivation and dependency-estimation
logic of dh-make-golang, shallowly embedded from `version.go` and
`estimate.go`.  Strings are modelled as `List Char`; each external `git`
invocation performed by the Go code is modelled as a field of an
environment record holding the command's output (`none` = the command
exited nonzero).
-/

set_option maxRecDepth 4000

/-- Strings are modelled as lists of characters. -/
abbrev Str := List Char

/-- Shorthand turning a Lean string literal into the `List Char` model. -/
def str (s : String) : Str := s.toList

/-- Whitespace as recognized by Go's `unicode.IsSpace` (restricted to the
ASCII range, which is all the git outputs modelled here can contain). -/
def isGoSpace (c : Char) : Bool :=
  c = ' ' ∨ c = '\t' ∨ c = '\n' ∨ c = (Char.ofNat 11) ∨ c = (Char.ofNat 12) ∨ c = '\r'

/-- Go `strings.TrimSpace`: remove leading and trailing whitespace. -/
def trimSpace (s : Str) : Str :=
  ((s.dropWhile isGoSpace).reverse.dropWhile isGoSpace).reverse

/-- Go `unicode.IsNumber` (Unicode category N), restricted to the ASCII
range where it coincides with being a decimal digit. -/
def isGoNumber (c : Char) : Bool := c.isDigit

/-- Numeric value of a decimal digit character. -/
def digitVal (c : Char) : Nat := c.toNat - 48

/-- Numeric value of a list of decimal digit characters (most significant
first), i.e. the accumulator loop used by `strconv`'s digit parsing. -/
def valDigits (ds : List Char) : Nat :=
  ds.foldl (fun acc c => 10 * acc + digitVal c) 0

/-- Digit-extraction loop for decimal rendering; structural recursion on
a fuel bound so that the kernel can evaluate it (any fuel above the
number of digits gives the same result). -/
def natToDigitsAux : Nat → Nat → List Char
  | 0, _ => []
  | fuel + 1, n =>
    if n < 10 then [Nat.digitChar n]
    else natToDigitsAux fuel (n / 10) ++ [Nat.digitChar (n % 10)]

/-- Decimal rendering of a natural number, the model of `strconv.Itoa`
(and of the `%d`-style formatting used by the Go code) for nonnegative
values. -/
def natToDigits (n : Nat) : List Char := natToDigitsAux (n + 1) n

theorem natToDigitsAux_fuel {fuel fuel' n : Nat} (h : n < fuel) (h' : n < fuel') :
    natToDigitsAux fuel n = natToDigitsAux fuel' n := by
  induction fuel generalizing fuel' n with
  | zero => omega
  | succ f ih =>
    cases fuel' with
    | zero => omega
    | succ f' =>
      simp only [natToDigitsAux]
      split
      · rfl
      · rename_i hn
        rw [ih (by omega : n / 10 < f) (by omega : n / 10 < f')]

theorem natToDigits_step (n : Nat) :
    natToDigits n = if n < 10 then [Nat.digitChar n]
      else natToDigits (n / 10) ++ [Nat.digitChar (n % 10)] := by
  show natToDigitsAux (n + 1) n = _
  rw [natToDigitsAux]
  split
  · rfl
  · rename_i hn
    rw [@natToDigitsAux_fuel n (n / 10 + 1) (n / 10) (by omega) (by omega)]
    rfl

theorem valDigits_aux (ds : List Char) (acc : Nat) :
    ds.foldl (fun acc c => 10 * acc + digitVal c) acc
      = acc * 10 ^ ds.length + valDigits ds := by
  induction ds generalizing acc with
  | nil => simp [valDigits]
  | cons d ds ih =>
    simp only [List.foldl_cons, List.length_cons, valDigits]
    rw [ih, ih (10 * 0 + digitVal d)]
    ring

theorem valDigits_append (a b : List Char) :
    valDigits (a ++ b) = valDigits a * 10 ^ b.length + valDigits b := by
  simp only [valDigits, List.foldl_append]
  rw [valDigits_aux b (List.foldl _ 0 a)]
  rfl

theorem digitChar_isDigit {n : Nat} (h : n < 10) :
    (Nat.digitChar n).isDigit = true := by
  interval_cases n <;> decide

theorem digitVal_digitChar {n : Nat} (h : n < 10) :
    digitVal (Nat.digitChar n) = n := by
  interval_cases n <;> decide

theorem natToDigits_ne_nil (n : Nat) : natToDigits n ≠ [] := by
  rw [natToDigits_step]
  split <;> simp

theorem natToDigits_all_digits (n : Nat) :
    (natToDigits n).all Char.isDigit = true := by
  induction n using Nat.strong_induction_on with
  | _ n ih =>
    rw [natToDigits_step]
    split
    · rename_i h
      simp [digitChar_isDigit h]
    · rename_i h
      simp only [List.all_append, Bool.and_eq_true]
      refine ⟨ih (n / 10) (Nat.div_lt_self (by omega) (by omega)), ?_⟩
      simp [digitChar_isDigit (Nat.mod_lt _ (by omega))]

theorem valDigits_natToDigits (n : Nat) : valDigits (natToDigits n) = n := by
  induction n using Nat.strong_induction_on with
  | _ n ih =>
    rw [natToDigits_step]
    split
    · rename_i h
      simp [valDigits, digitVal_digitChar h]
    · rename_i h
      rw [valDigits_append, ih (n / 10) (Nat.div_lt_self (by omega) (by omega))]
      simp [valDigits, digitVal_digitChar (Nat.mod_lt n (by omega))]
      omega

/-! ## Parsing helpers from Go's strconv, as used by version.go -/

/-- Parse a nonempty all-digit string as a natural number (the digit loop
shared by `strconv.Atoi` and `strconv.ParseInt`). -/
def parseDigits (ds : Str) : Option Nat :=
  if ds ≠ [] ∧ ds.all Char.isDigit then some (valDigits ds) else none

/-- Go `strconv.Atoi` (i.e. `ParseInt(s, 10, 0)` on a 64-bit platform):
optional sign, then decimal digits, rejecting empty input, stray
characters and out-of-range values. -/
def goAtoi (s : Str) : Option Int :=
  match s with
  | '+' :: rest => (parseDigits rest).bind fun n =>
      if n ≤ 2 ^ 63 - 1 then some (n : Int) else none
  | '-' :: rest => (parseDigits rest).bind fun n =>
      if n ≤ 2 ^ 63 then some (-(n : Int)) else none
  | _ => (parseDigits s).bind fun n =>
      if n ≤ 2 ^ 63 - 1 then some (n : Int) else none

/-- Value of a hexadecimal digit character, if any. -/
def hexVal (c : Char) : Option Nat :=
  if c.isDigit then some (digitVal c)
  else if 'a' ≤ c ∧ c ≤ 'f' then some (c.toNat - 87)
  else if 'A' ≤ c ∧ c ≤ 'F' then some (c.toNat - 55)
  else none

/-- Parse a nonempty digit string in the given base. -/
def parseBase (base : Nat) (ds : Str) : Option Nat :=
  match ds with
  | [] => none
  | _ => ds.foldl
      (fun acc c => acc.bind fun a => (hexVal c).bind fun v =>
        if v < base then some (base * a + v) else none)
      (some 0)

/-- Magnitude part of Go `strconv.ParseInt(s, 0, 64)`: base deduced from
the `0x`/`0o`/`0b` or leading-zero (octal) form, else decimal.
(Underscore digit separators, which `git log --pretty=format:%ct` never
emits, are not modelled.) -/
def parseBase0Mag (s : Str) : Option Nat :=
  match s with
  | '0' :: 'x' :: rest => parseBase 16 rest
  | '0' :: 'X' :: rest => parseBase 16 rest
  | '0' :: 'o' :: rest => parseBase 8 rest
  | '0' :: 'O' :: rest => parseBase 8 rest
  | '0' :: 'b' :: rest => parseBase 2 rest
  | '0' :: 'B' :: rest => parseBase 2 rest
  | '0' :: rest => if rest = [] then some 0 else parseBase 8 rest
  | _ => parseBase 10 s

/-- Go `strconv.ParseInt(s, 0, 64)`: optional sign, then the base-0
magnitude, with the int64 range check. -/
def goParseInt64 (s : Str) : Option Int :=
  match s with
  | '+' :: rest => (parseBase0Mag rest).bind fun n =>
      if n ≤ 2 ^ 63 - 1 then some (n : Int) else none
  | '-' :: rest => (parseBase0Mag rest).bind fun n =>
      if n ≤ 2 ^ 63 then some (-(n : Int)) else none
  | _ => (parseBase0Mag s).bind fun n =>
      if n ≤ 2 ^ 63 - 1 then some (n : Int) else none

/-! ## UTC date formatting, modelling Go's
`time.Unix(t, 0).UTC().Format("20060102")` -/

/-- Proleptic-Gregorian (year, month, day) of a day count since the Unix
epoch: the standard civil-from-days calendar computation used to model
Go's `time` package. -/
def civilFromDays (days : Int) : Int × Int × Int :=
  let z := days + 719468
  let era := Int.ediv z 146097
  let doe := z - era * 146097
  let yoe := Int.ediv (doe - Int.ediv doe 1460 + Int.ediv doe 36524 - Int.ediv doe 146096) 365
  let y := yoe + era * 400
  let doy := doe - (365 * yoe + Int.ediv yoe 4 - Int.ediv yoe 100)
  let mp := Int.ediv (5 * doy + 2) 153
  let d := doy - Int.ediv (153 * mp + 2) 5 + 1
  let m := mp + (if mp < 10 then 3 else -9)
  (y + (if m ≤ 2 then 1 else 0), m, d)

/-- Zero-padded decimal rendering with the given minimum width. -/
def padNum (w n : Nat) : Str :=
  List.replicate (w - (natToDigits n).length) '0' ++ natToDigits n

/-- The `YYYYMMDD` UTC date string of a Unix timestamp, the model of
`time.Unix(lastCommitUnix, 0).UTC().Format("20060102")`. -/
def formatYYYYMMDD (t : Int) : Str :=
  let days := Int.ediv t 86400
  match civilFromDays days with
  | (y, m, d) => padNum 4 y.toNat ++ padNum 2 m.toNat ++ padNum 2 d.toNat

example : formatYYYYMMDD 1700000000 = str "20231114" := by decide
example : formatYYYYMMDD 1704067200 = str "20240101" := by decide

/-! ## The describeRegexp match of version.go -/

/-- Lower-case hexadecimal digit, the `[0-9a-f]` class of `describeRegexp`. -/
def isHexLower (c : Char) : Bool := c.isDigit ∨ ('a' ≤ c ∧ c ≤ 'f')

/-- The `\s` class of Go's regexp package: `[\t\n\f\r ]`. -/
def isRegexpSpace (c : Char) : Bool :=
  c = '\t' ∨ c = '\n' ∨ c = (Char.ofNat 12) ∨ c = '\r' ∨ c = ' '

/-- Attempt to match `-\d+-g([0-9a-f]+)\s*$` at the head of `s`, returning
the capture group.  At a fixed start the match is deterministic: `\d+` must
be the maximal digit run (a shorter run would put a digit where `-` is
required), `[0-9a-f]+` must be the maximal hex run (a shorter run would put
a hex character where only whitespace may precede the end). -/
def describeMatchAt (s : Str) : Option Str :=
  match s with
  | '-' :: rest =>
    let ds := rest.takeWhile Char.isDigit
    if ds = [] then none
    else
      match rest.drop ds.length with
      | '-' :: 'g' :: r3 =>
        let hx := r3.takeWhile isHexLower
        if hx = [] then none
        else if (r3.drop hx.length).all isRegexpSpace then some hx
        else none
      | _ => none
  | _ => none

/-- `describeRegexp.FindSubmatch`: the capture group of the leftmost match
of `-\d+-g([0-9a-f]+)\s*$` (Go's regexp engine returns the match with the
leftmost possible start). -/
def describeHash : Str → Option Str
  | [] => none
  | c :: rest =>
    match describeMatchAt (c :: rest) with
    | some hx => some hx
    | none => describeHash rest

example : describeHash (str "v4.10.2-232-g9f107c8\n") = some (str "9f107c8") := by decide
example : describeHash (str "v1.0-rc1-5-gabcdef\n") = some (str "abcdef") := by decide
example : describeHash (str "v1.0") = none := by decide

/-! ## version.go: pkgVersionFromGit -/

/-- The `upstream` struct of make.go, as far as version.go touches it. -/
structure Upstream where
  version : Str := []
  commitIsh : Str := []
  tag : Str := []
  hasRelease : Bool := false
  isRelease : Bool := false
deriving Repr, DecidableEq, Inhabited

/-- Outcome of each git invocation performed by `pkgVersionFromGit`
(`none` models a nonzero exit of the command).  `revListCount` is keyed by
the tag passed in the `{tag}..HEAD` range argument. -/
structure GitRepo where
  describeLatestTag : Option Str
  revListCount : Str → Option Str
  logCommitTime : Option Str
  describeLong : Option Str
  revParseShort : Option Str

/-- The error cases surfaced by `pkgVersionFromGit`: a failed git command,
a failed `strconv` parse, or `git describe` output in an unexpected
format. -/
inductive VersionErr
  | gitFail
  | atoiFail
  | parseIntFail
  | describeFormat (out : Str)
deriving Repr, DecidableEq

/-- The "Packaging @master (prerelease)" tail of `pkgVersionFromGit`
(version.go lines 82-131): build the `{base}git{YYYYMMDD}.{hash}` snapshot
version, falling back to `git rev-parse --short HEAD` when
`git describe --long --tags` fails (no tags at all). -/
def packageMaster (repo : GitRepo) (u : Upstream) : Except VersionErr (Str × Upstream) :=
  let mainVer := if u.hasRelease then u.version ++ str "+" else str "0.0~"
  match repo.logCommitTime with
  | none => .error .gitFail
  | some lastCommitUnixBytes =>
    match goParseInt64 (trimSpace lastCommitUnixBytes) with
    | none => .error .parseIntFail
    | some lastCommitUnix =>
      match repo.describeLong with
      | none =>
        match repo.revParseShort with
        | none => .error .gitFail
        | some revparseBytes =>
          let lastCommitHash := trimSpace revparseBytes
          let u := { u with commitIsh := lastCommitHash }
          let v := mainVer ++ str "git" ++ formatYYYYMMDD lastCommitUnix
                     ++ str "." ++ lastCommitHash
          .ok (v, { u with version := v })
      | some describeBytes =>
        match describeHash describeBytes with
        | none => .error (.describeFormat describeBytes)
        | some lastCommitHash =>
          let u := { u with commitIsh := trimSpace describeBytes }
          let v := mainVer ++ str "git" ++ formatYYYYMMDD lastCommitUnix
                     ++ str "." ++ lastCommitHash
          .ok (v, { u with version := v })

/-- `pkgVersionFromGit` (version.go lines 31-132).  If
`git describe --abbrev=0 --tags --exclude */v*` finds a tag, count the
commits ahead of it, strip the tag's leading non-numeric prefix into
`u.version`, and return it unless the caller forces prerelease packaging;
otherwise (or when no tag exists) build a snapshot version via
`packageMaster`.  The commits-ahead count is only parsed and logged. -/
def pkgVersionFromGit (repo : GitRepo) (u : Upstream) (forcePrerelease : Bool) :
    Except VersionErr (Str × Upstream) :=
  match repo.describeLatestTag with
  | some out =>
    let latestTag := trimSpace out
    let u := { u with hasRelease := true, tag := latestTag }
    match repo.revListCount latestTag with
    | none => .error .gitFail
    | some cntOut =>
      match goAtoi (trimSpace cntOut) with
      | none => .error .atoiFail
      | some _commitsAhead =>
        let u := { u with commitIsh := latestTag,
                          version := latestTag.dropWhile (fun c => !(isGoNumber c)) }
        if forcePrerelease then packageMaster repo u
        else (.ok (u.version, { u with isRelease := true }))
  | none => packageMaster repo u

/-- The zero value of the `upstream` struct, as passed by `make.go`. -/
def u0 : Upstream := {}

/-- A repository whose latest tag `v7.8` has HEAD 2 commits ahead of it. -/
def repoAheadOfTag : GitRepo :=
  { describeLatestTag := some (str "v7.8\n")
    revListCount := fun _ => some (str "2\n")
    logCommitTime := some (str "1700000000\n")
    describeLong := some (str "v7.8-2-gdeadbe\n")
    revParseShort := some (str "deadbe\n") }

/-- A repository with the tag `v1.0-rc1` exactly at HEAD. -/
def repoExactRc : GitRepo :=
  { describeLatestTag := some (str "v1.0-rc1\n")
    revListCount := fun _ => some (str "0\n")
    logCommitTime := some (str "1690000000\n")
    describeLong := some (str "v1.0-rc1-0-gabc123\n")
    revParseShort := some (str "abc123\n") }

/-- A repository with no tags at all: both `git describe` invocations fail. -/
def repoNoTags : GitRepo :=
  { describeLatestTag := none
    revListCount := fun _ => none
    logCommitTime := some (str "1700000000\n")
    describeLong := none
    revParseShort := some (str "abc123\n") }

example : (pkgVersionFromGit repoAheadOfTag u0 false).toOption.map Prod.fst
    = some (str "7.8") := by decide
example : (pkgVersionFromGit repoExactRc u0 false).toOption.map Prod.fst
    = some (str "1.0-rc1") := by decide
example : (pkgVersionFromGit repoNoTags u0 false).toOption.map Prod.fst
    = some (str "0.0~git20231114.abc123") := by decide
example : (pkgVersionFromGit repoAheadOfTag u0 true).toOption.map Prod.fst
    = some (str "7.8+git20231114.deadbe") := by decide

/-! ## Claims C1, C2, C6, C8 about pkgVersionFromGit -/

instance {e a : Type} [DecidableEq e] [DecidableEq a] : DecidableEq (Except e a) := fun x y =>
  match x, y with
  | .ok v, .ok w => if h : v = w then isTrue (by rw [h]) else isFalse (by simp [h])
  | .error v, .error w => if h : v = w then isTrue (by rw [h]) else isFalse (by simp [h])
  | .ok _, .error _ => isFalse (by simp)
  | .error _, .ok _ => isFalse (by simp)

/-- C1, as stated, is false: with commits ahead of the tag and
`forcePrerelease = false`, `pkgVersionFromGit` does NOT fall through to
snapshot construction.  Concretely, with latest tag `v7.8` and a rev-list
count of 2 it returns the bare `7.8`, which does not start with
`7.8+git`. -/
theorem C1_counterexample :
    repoAheadOfTag.describeLatestTag = some (str "v7.8\n")
    ∧ repoAheadOfTag.revListCount (str "v7.8") = some (str "2\n")
    ∧ goAtoi (trimSpace (str "2\n")) = some 2
    ∧ (pkgVersionFromGit repoAheadOfTag u0 false).toOption.map Prod.fst = some (str "7.8")
    ∧ (str "7.8+git").isPrefixOf (str "7.8") = false := by
  decide

/-- C1 (amended): whenever the latest-tag probe succeeds and the commit
count parses (whether zero or positive), `pkgVersionFromGit` with
`forcePrerelease = false` returns the tag stripped of its leading
non-numeric prefix and marks the upstream as a release; the fall-through
to snapshot construction happens only when `forcePrerelease` is true or no
tag is found. -/
theorem C1_tag_ahead_returns_bare_tag
    (repo : GitRepo) (u : Upstream) (out cnt : Str) (n : Int)
    (htag : repo.describeLatestTag = some out)
    (hcnt : repo.revListCount (trimSpace out) = some cnt)
    (hparse : goAtoi (trimSpace cnt) = some n)
    (_hahead : 0 < n) :
    pkgVersionFromGit repo u false
      = .ok ((trimSpace out).dropWhile (fun c => !(isGoNumber c)),
          { u with hasRelease := true, tag := trimSpace out,
                   commitIsh := trimSpace out,
                   version := (trimSpace out).dropWhile (fun c => !(isGoNumber c)),
                   isRelease := true }) := by
  simp [pkgVersionFromGit, htag, hcnt, hparse]

/-- Witness for C1 (amended) at the concrete two-commits-ahead repo. -/
theorem C1_tag_ahead_returns_bare_tag_witness :
    pkgVersionFromGit repoAheadOfTag u0 false
      = .ok (str "7.8",
          { version := str "7.8", commitIsh := str "v7.8", tag := str "v7.8",
            hasRelease := true, isRelease := true }) :=
  (C1_tag_ahead_returns_bare_tag repoAheadOfTag u0 (str "v7.8\n") (str "2\n") 2
    rfl rfl (by decide) (by decide)).trans (by decide)

/-- C2, as stated, is false: the code only strips the leading non-numeric
prefix of the tag; it never maps the hyphen of a prerelease separator to a
tilde.  With tag `v1.0-rc1` exactly at HEAD the returned version is
`1.0-rc1`, not the claimed `1.0~rc1`. -/
theorem C2_counterexample :
    repoExactRc.describeLatestTag = some (str "v1.0-rc1\n")
    ∧ goAtoi (trimSpace (str "0\n")) = some 0
    ∧ (pkgVersionFromGit repoExactRc u0 false).toOption.map Prod.fst = some (str "1.0-rc1")
    ∧ str "1.0-rc1" ≠ str "1.0~rc1" := by
  decide

/-- C2 (amended): with an exact tag at HEAD (rev-list count parses as 0)
and no forced prerelease, the returned version is the tag stripped of its
leading non-numeric prefix, with any hyphens kept verbatim: `v7.8` yields
`7.8` and `v1.0-rc1` yields `1.0-rc1`. -/
theorem C2_exact_tag_returns_stripped_tag
    (repo : GitRepo) (u : Upstream) (out cnt : Str)
    (htag : repo.describeLatestTag = some out)
    (hcnt : repo.revListCount (trimSpace out) = some cnt)
    (hparse : goAtoi (trimSpace cnt) = some 0) :
    pkgVersionFromGit repo u false
      = .ok ((trimSpace out).dropWhile (fun c => !(isGoNumber c)),
          { u with hasRelease := true, tag := trimSpace out,
                   commitIsh := trimSpace out,
                   version := (trimSpace out).dropWhile (fun c => !(isGoNumber c)),
                   isRelease := true }) := by
  simp [pkgVersionFromGit, htag, hcnt, hparse]

/-- Witness for C2 (amended) at the concrete `v1.0-rc1` repo. -/
theorem C2_exact_tag_returns_stripped_tag_witness :
    pkgVersionFromGit repoExactRc u0 false
      = .ok (str "1.0-rc1",
          { version := str "1.0-rc1", commitIsh := str "v1.0-rc1", tag := str "v1.0-rc1",
            hasRelease := true, isRelease := true }) :=
  (C2_exact_tag_returns_stripped_tag repoExactRc u0 (str "v1.0-rc1\n") (str "0\n")
    rfl rfl (by decide)).trans (by decide)

/-- C6: with zero tags (both describe probes fail), `pkgVersionFromGit`
returns exactly `0.0~git{YYYYMMDD}.{shortHash}` where the date is the UTC
committer date of HEAD and the hash is the trimmed
`git rev-parse --short HEAD` output. -/
theorem C6_no_tag_snapshot_version
    (repo : GitRepo) (u : Upstream) (ts rp : Str) (t : Int)
    (hfresh : u.hasRelease = false)
    (hnotag : repo.describeLatestTag = none)
    (hlog : repo.logCommitTime = some ts)
    (hparse : goParseInt64 (trimSpace ts) = some t)
    (hdesc : repo.describeLong = none)
    (hrev : repo.revParseShort = some rp) :
    (pkgVersionFromGit repo u false).toOption.map Prod.fst
      = some (str "0.0~git" ++ formatYYYYMMDD t ++ str "." ++ trimSpace rp) := by
  have e : str "0.0~git" = str "0.0~" ++ str "git" := by decide
  rw [e]
  simp [pkgVersionFromGit, packageMaster, hnotag, hlog, hparse, hdesc, hrev, hfresh,
    Except.toOption]

/-- Witness for C6 at the concrete tagless repo: committer time 1700000000
is 2023-11-14 UTC, so the version is `0.0~git20231114.abc123`. -/
theorem C6_no_tag_snapshot_version_witness :
    (pkgVersionFromGit repoNoTags u0 false).toOption.map Prod.fst
      = some (str "0.0~git20231114.abc123") :=
  (C6_no_tag_snapshot_version repoNoTags u0 (str "1700000000\n") (str "abc123\n")
    1700000000 rfl rfl rfl (by decide) rfl rfl).trans (by decide)

/-! ## Claim C8: error propagation of pkgVersionFromGit -/

/-- The snapshot path (`packageMaster`) is reached: either the latest-tag
probe failed (no tag), or a tag was found, the rev-list count succeeded
and parsed, and the caller forced prerelease packaging. -/
def reachesSnapshotPath (repo : GitRepo) (forcePrerelease : Bool) : Prop :=
  repo.describeLatestTag = none
  ∨ (∃ out cnt n, repo.describeLatestTag = some out
      ∧ repo.revListCount (trimSpace out) = some cnt
      ∧ goAtoi (trimSpace cnt) = some n
      ∧ forcePrerelease = true)

/-- Failure of a git command whose failure version.go does not tolerate:
the rev-list count after a tag was found; the committer-date query on the
snapshot path; or both `git describe --long --tags` and its
`git rev-parse --short HEAD` fallback on the snapshot path. -/
def requiredGitCmdFails (repo : GitRepo) (forcePrerelease : Bool) : Prop :=
  (∃ out, repo.describeLatestTag = some out ∧ repo.revListCount (trimSpace out) = none)
  ∨ (reachesSnapshotPath repo forcePrerelease ∧ repo.logCommitTime = none)
  ∨ (reachesSnapshotPath repo forcePrerelease
      ∧ (∃ ts t, repo.logCommitTime = some ts ∧ goParseInt64 (trimSpace ts) = some t)
      ∧ repo.describeLong = none ∧ repo.revParseShort = none)

theorem packageMaster_log_fail (repo : GitRepo) (u : Upstream)
    (h : repo.logCommitTime = none) :
    packageMaster repo u = .error .gitFail := by
  simp [packageMaster, h]

theorem packageMaster_describe_fail (repo : GitRepo) (u : Upstream) (ts : Str) (t : Int)
    (hlog : repo.logCommitTime = some ts)
    (hparse : goParseInt64 (trimSpace ts) = some t)
    (hdesc : repo.describeLong = none)
    (hrev : repo.revParseShort = none) :
    packageMaster repo u = .error .gitFail := by
  simp [packageMaster, hlog, hparse, hdesc, hrev]

theorem pkgVersionFromGit_snapshotPath (repo : GitRepo) (u : Upstream) (f : Bool)
    (h : reachesSnapshotPath repo f) :
    ∃ u', pkgVersionFromGit repo u f = packageMaster repo u' := by
  rcases h with hnone | ⟨out, cnt, n, htag, hcnt, hn, hf⟩
  · exact ⟨u, by simp [pkgVersionFromGit, hnone]⟩
  · subst hf
    refine ⟨{ u with
        hasRelease := true
        tag := trimSpace out
        commitIsh := trimSpace out
        version := (trimSpace out).dropWhile (fun c => !(isGoNumber c)) }, ?_⟩
    simp [pkgVersionFromGit, htag, hcnt, hn]

/-- C8, as stated, is false: the failure of an invoked git command is not
always surfaced as an error.  On the tagless repo both
`git describe --abbrev=0` and `git describe --long` fail (exit nonzero),
yet `pkgVersionFromGit` works around them (falling back to
`git rev-parse --short HEAD`) and successfully produces a version
string. -/
theorem C8_counterexample :
    repoNoTags.describeLatestTag = none
    ∧ repoNoTags.describeLong = none
    ∧ (pkgVersionFromGit repoNoTags u0 false).toOption.map Prod.fst
        = some (str "0.0~git20231114.abc123") := by
  decide

/-- C8 (amended): the failures of the two `git describe` probes are
tolerated (they signal the absence of tags and trigger fallbacks), but the
failure of any other git command invoked on the taken path — the rev-list
count, the committer-date query, or the rev-parse fallback when describe
also failed — makes `pkgVersionFromGit` return an error, and no version
string is produced. -/
theorem C8_required_cmd_failure_is_error
    (repo : GitRepo) (u : Upstream) (f : Bool)
    (h : requiredGitCmdFails repo f) :
    pkgVersionFromGit repo u f = .error .gitFail := by
  rcases h with ⟨out, htag, hcnt⟩ | ⟨hsnap, hlog⟩ | ⟨hsnap, ⟨ts, t, hlog, hparse⟩, hdesc, hrev⟩
  · simp [pkgVersionFromGit, htag, hcnt]
  · obtain ⟨u', hu'⟩ := pkgVersionFromGit_snapshotPath repo u f hsnap
    rw [hu', packageMaster_log_fail repo u' hlog]
  · obtain ⟨u', hu'⟩ := pkgVersionFromGit_snapshotPath repo u f hsnap
    rw [hu', packageMaster_describe_fail repo u' ts t hlog hparse hdesc hrev]

/-- A repository where the rev-list count fails after a tag was found. -/
def repoRevListFails : GitRepo :=
  { describeLatestTag := some (str "v7.8\n")
    revListCount := fun _ => none
    logCommitTime := some (str "1700000000\n")
    describeLong := some (str "v7.8-2-gdeadbe\n")
    revParseShort := some (str "deadbe\n") }

/-- Witness for C8 (amended): the failing rev-list count on a tagged repo
surfaces as an error. -/
theorem C8_required_cmd_failure_is_error_witness :
    pkgVersionFromGit repoRevListFails u0 false = .error .gitFail :=
  C8_required_cmd_failure_is_error repoRevListFails u0 false
    (.inl ⟨str "v7.8\n", rfl, rfl⟩)

/-! ## estimate.go: otherVersions (majorVersionRegexp) -/

/-- Does the string have the form `v<digits>` with at least one digit,
i.e. can it complete a match of `([/.])v([0-9]+)$` after the separator? -/
def matchVTail (s : Str) : Bool :=
  match s with
  | c :: ds => c = 'v' ∧ ds ≠ [] ∧ ds.all Char.isDigit
  | [] => false

/-- `majorVersionRegexp.FindStringSubmatch`: the leftmost match of
`([/.])v([0-9]+)$`, returning (prefix before the match, separator,
version digits).  Because the pattern is anchored at the end and the
character after the separator must be `v` followed only by digits, at
most one start position can match, and the scan finds it. -/
def findMajorVersion : Str → Option (Str × Char × Str)
  | [] => none
  | c :: rest =>
    if (c = '/' ∨ c = '.') ∧ matchVTail rest then some ([], c, rest.tail)
    else
      match findMajorVersion rest with
      | some (p, sep, ds) => some (c :: p, sep, ds)
      | none => none

/-- `version, _ := strconv.Atoi(matchVer)` on the all-digit capture: the
error is discarded; per ParseInt's range behavior an out-of-range value
comes back clamped to the maximal int64. -/
def atoiClamped (ds : Str) : Nat := min (valDigits ds) (2 ^ 63 - 1)

/-- The countdown loop `for v := version - 1; v > 1; v--`: lists `n`,
`n-1`, ..., `2` (empty when `n < 2`). -/
def downTo2 : Nat → List Nat
  | 0 => []
  | 1 => []
  | v + 2 => (v + 2) :: downTo2 (v + 1)

/-- `otherVersions` (estimate.go lines 67-81): from a module path with a
major-version suffix, guess the import paths of the other major versions
`v(N-1)` ... `v2` and finally the bare prefix; an empty list when the
regexp does not match. -/
def otherVersions (mods : Str) : List Str :=
  match findMajorVersion mods with
  | none => []
  | some (pfx, matchSep, matchVer) =>
    let version := atoiClamped matchVer
    ((downTo2 (version - 1)).map (fun v => pfx ++ [matchSep] ++ str "v" ++ natToDigits v))
      ++ [pfx]

example : otherVersions (str "example.com/pkg/v4")
    = [str "example.com/pkg/v3", str "example.com/pkg/v2", str "example.com/pkg"] := by
  decide
example : otherVersions (str "gopkg.in/yaml.v2") = [str "gopkg.in/yaml"] := by decide
example : otherVersions (str "example.com/pkg") = [] := by decide

/-! ## estimate.go: the dependency-graph walker -/

/-- `strings.Cut(s, sep)` for a single-character separator: the parts
before and after the first occurrence, and whether it occurred. -/
def goCut : Str → Char → Str × Str × Bool
  | [], _ => ([], [], false)
  | c :: rest, sep =>
    if c = sep then ([], rest, true)
    else
      let r := goCut rest sep
      (c :: r.1, r.2.1, r.2.2)

/-- `strings.Cut(n.name, "@")`: the module name without its version. -/
def stripMod (name : Str) : Str := (goCut name '@').1

example : stripMod (str "a@v1") = str "a" := by decide
example : stripMod (str "abc") = str "abc" := by decide

/-- Association-list lookup (the reads of the Go maps). -/
def alistGet {b : Type} : List (Str × b) → Str → Option b
  | [], _ => none
  | (k, v) :: rest, m => if k = m then some v else alistGet rest m

/-- Association-list update (the writes of the Go maps). -/
def alistSet {b : Type} : List (Str × b) → Str → b → List (Str × b)
  | [], m, n => [(m, n)]
  | (k, v) :: rest, m, n =>
    if k = m then (m, n) :: rest else (k, v) :: alistSet rest m n

/-- A line of the estimate report: `req` is a first-visit ("needed") line
carrying everything the formatting decisions depend on, `rpt` a
lower-emphasis repeat-reference line with the updated count. -/
inductive RLine
  | req (indent : Nat) (mods repoRoot : Str) (debianVersion : Option Str) (rrSeen : Bool)
  | rpt (indent : Nat) (mods : Str) (count : Nat)
deriving Repr, DecidableEq

/-- The escape sequence `\033[90m` starting gray output. -/
def escGray : Str := Char.ofNat 27 :: str "[90m"

/-- The escape sequence `\033[0m` resetting the output color. -/
def escReset : Str := Char.ofNat 27 :: str "[0m"

/-- Rendering of a report line into the exact string estimate.go builds
(lines 193 and 233-244). -/
def renderLine : RLine → Str
  | .rpt indent mods count =>
      List.replicate (2 * indent) ' ' ++ escGray ++ mods ++ str " ("
        ++ natToDigits count ++ str ")" ++ escReset
  | .req indent mods repoRoot dv rrSeen =>
      List.replicate (2 * indent) ' '
      ++ (if rrSeen then escGray ++ mods ++ escReset
          else if repoRoot.isPrefixOf mods ∧ repoRoot.length < mods.length then
            repoRoot ++ escGray ++ mods.drop repoRoot.length ++ escReset
          else mods)
      ++ (match dv with
          | some v => '\t' :: (str "(" ++ v ++ str " in Debian)")
          | none => [])

/-- The inputs of the graph analysis: the `golangBinaries` map of
already-packaged import paths and `vcs.RepoRootForImportPath` (`none`
models its error return). -/
structure EstimateEnv where
  packaged : List Str
  repoRoot? : Str → Option Str

/-- The mutable state of the walk: the report lines, and the `seen`,
`rrseen` and `needed` maps. -/
structure VisitSt where
  lines : List RLine
  seen : List Str
  rrseen : List Str
  needed : List (Str × Nat)
deriving Repr, DecidableEq

/-- The empty initial state of the walk. -/
def st0 : VisitSt := ⟨[], [], [], []⟩

/-- The recursive `visit` closure of estimate.go (lines 183-252), with a
fuel bound on the recursion depth (`none` = the recursion exceeds the
fuel; the Go original has no such bound and simply recurses).  Note that
after emitting a repeat line the code falls through to the children loop,
and that an alternate-major-version hit produces an annotated line and
also falls through; only go/toolchain, exact packaged hits, repo-root
packaged hits and already-seen non-needed modules return early. -/
def visit (env : EstimateEnv) (g : Str → List Str) :
    Nat → Str → Nat → VisitSt → Option VisitSt
  | 0, _, _, _ => none
  | fuel + 1, name, indent, st =>
    let mods := stripMod name
    match alistGet st.needed mods with
    | some count =>
      let st' : VisitSt := { st with
        needed := alistSet st.needed mods (count + 1)
        lines := st.lines ++ [.rpt indent mods (count + 1)] }
      (g name).foldlM (fun s c => visit env g fuel c (indent + 1) s) st'
    | none =>
      if mods ∈ st.seen then some st
      else
        let st1 : VisitSt := { st with seen := mods :: st.seen }
        if mods = str "go" ∨ mods = str "toolchain" then some st1
        else if mods ∈ env.packaged then some st1
        else
          let repoRoot := (env.repoRoot? mods).getD mods
          let debianVersion := (otherVersions mods).find? (fun ov => decide (ov ∈ env.packaged))
          if debianVersion = none ∧ repoRoot ∈ env.packaged then some st1
          else
            let st2 : VisitSt := { st1 with
              lines := st1.lines ++
                [.req indent mods repoRoot debianVersion (decide (repoRoot ∈ st1.rrseen))]
              rrseen := repoRoot :: st1.rrseen
              needed := (mods, 1) :: st1.needed }
            (g name).foldlM (fun s c => visit env g fuel c (indent + 1) s) st2

/-! ## estimate.go: graph construction and the estimate pipeline -/

/-- Append a child to a node's children list, creating the node if needed
(the `nodes` map plus `srcNode.children = append(...)` of estimate.go). -/
def addChild : List (Str × List Str) → Str → Str → List (Str × List Str)
  | [], src, dep => [(src, [dep])]
  | (k, cs) :: rest, src, dep =>
    if k = src then (k, cs ++ [dep]) :: rest
    else (k, cs) :: addChild rest src dep

/-- The line loop of estimate.go (lines 151-176): parse each
`go mod graph` line into an edge.  A source without `@` is the dummy
module and is skipped; a source equal to the import path or below it is
collapsed onto the import path. -/
def buildGraphLines (importpath : Str) : List Str → List (Str × List Str) → List (Str × List Str)
  | [], acc => acc
  | line :: rest, acc =>
    let cut := goCut line ' '
    let src := cut.1
    let dep := cut.2.1
    let srcCut := goCut src '@'
    if srcCut.2.2 = false then buildGraphLines importpath rest acc
    else
      let mods := srcCut.1
      let src' := if mods = importpath ∨ (importpath ++ str "/").isPrefixOf mods
                  then importpath else src
      buildGraphLines importpath rest (addChild acc src' dep)

/-- `go mod graph` output to adjacency lists. -/
def buildGraph (importpath : Str) (out : Str) : List (Str × List Str) :=
  buildGraphLines importpath ((trimSpace out).splitOn '\n') []

/-- Children of a node by name (absent nodes have no children). -/
def graphChildren (g : List (Str × List Str)) (name : Str) : List Str :=
  (alistGet g name).getD []

/-- The failure modes of the `estimate` pipeline before the walk. -/
inductive EstErr
  | tempDir
  | dummyMod
  | goGet
  | removeVendor
  | fetchUnvendored
  | modGraph
deriving Repr, DecidableEq

/-- Outcome of every external step `estimate` performs, in pipeline
order; `none` models the step's error return. -/
structure EstimateWorld where
  gopathTemp : Option Unit
  repodirTemp : Option Unit
  writeDummyMod : Option Unit
  goGet1 : Option Unit
  removeVendorRes : Option Bool
  goGet2 : Option Unit
  modGraphOut : Option Str
  golangBinaries : Option (List Str)
  repoRoot? : Str → Option Str

/-- `estimate` (estimate.go lines 83-266): run the pipeline and walk the
graph.  The value `some (.ok lines)` is a nil-error return printing
exactly `lines` (possibly none); `some (.error e)` a surfaced error; the
outer `none` means the walk's recursion exceeded the fuel. -/
def estimate (w : EstimateWorld) (importpath : Str) (fuel : Nat) :
    Option (Except EstErr (List RLine)) :=
  if w.gopathTemp.isNone then some (.error .tempDir)
  else if w.repodirTemp.isNone then some (.error .tempDir)
  else if w.writeDummyMod.isNone then some (.error .dummyMod)
  else if w.goGet1.isNone then some (.error .goGet)
  else match w.removeVendorRes with
  | none => some (.error .removeVendor)
  | some found =>
    if found ∧ w.goGet2.isNone then some (.error .fetchUnvendored)
    else match w.modGraphOut with
    | none => some (.error .modGraph)
    | some out =>
      match w.golangBinaries with
      | none => some (.ok [])
      | some packaged =>
        let env : EstimateEnv := { packaged := packaged, repoRoot? := w.repoRoot? }
        let g := buildGraph importpath out
        match visit env (graphChildren g) fuel importpath 0 st0 with
        | none => none
        | some st => some (.ok st.lines)

/-- `go mod graph` output of the diamond with a child below the shared
node: root→a, root→b, a→c, b→c, c→d. -/
def diamondGraphOut : Str :=
  str "dummymod r@v1\nr@v1 a@v1\nr@v1 b@v1\na@v1 c@v1\nb@v1 c@v1\nc@v1 d@v1"

/-- A fully successful pipeline with empty packaged set over the diamond
graph. -/
def diamondWorld : EstimateWorld :=
  { gopathTemp := some (), repodirTemp := some (), writeDummyMod := some ()
    goGet1 := some (), removeVendorRes := some false, goGet2 := some ()
    modGraphOut := some diamondGraphOut
    golangBinaries := some []
    repoRoot? := fun _ => none }

/-- C4: evaluating the walker on the diamond root→a, root→b, a→c, b→c
extended with c→d shows that the repeat visit to `c` (count 2) falls
through to c's children and walks them again, emitting a second (repeat)
line for `d` — contradicting the claim that a repeat visit does not
recurse into the node's children.  (On the claim's own example, where C
is childless, the re-walk is invisible; the report also starts with a
line for the root module itself.) -/
theorem C4_repeat_visit_rewalks_children :
    estimate diamondWorld (str "r") 10
      = some (.ok
          [ .req 0 (str "r") (str "r") none false,
            .req 1 (str "a") (str "a") none false,
            .req 2 (str "c") (str "c") none false,
            .req 3 (str "d") (str "d") none false,
            .req 1 (str "b") (str "b") none false,
            .rpt 2 (str "c") 2,
            .rpt 3 (str "d") 2 ]) := by decide

/-! ## Claim C10: otherVersions -/

theorem matchVTail_append_sep (p : Str) (sep : Char) (ds : Str)
    (hsep : sep = '/' ∨ sep = '.') :
    matchVTail (p ++ sep :: 'v' :: ds) = false := by
  have hnd : sep.isDigit = false := by rcases hsep with h | h <;> subst h <;> decide
  cases p with
  | nil =>
    have hv : ¬ sep = 'v' := by rcases hsep with h | h <;> subst h <;> decide
    simp [matchVTail, hv]
  | cons c p' =>
    simp only [List.cons_append, matchVTail, decide_eq_false_iff_not]
    rintro ⟨-, -, hall⟩
    rw [List.all_append] at hall
    simp [List.all_cons, hnd] at hall

theorem findMajorVersion_append (p : Str) (sep : Char) (ds : Str)
    (hsep : sep = '/' ∨ sep = '.') (hne : ds ≠ []) (hds : ds.all Char.isDigit = true) :
    findMajorVersion (p ++ sep :: 'v' :: ds) = some (p, sep, ds) := by
  induction p with
  | nil =>
    have hm : matchVTail ('v' :: ds) = true := by simp [matchVTail, hne, hds]
    simp [findMajorVersion, hsep, hm]
  | cons c p' ih =>
    have hm := matchVTail_append_sep p' sep ds hsep
    simp [findMajorVersion, hm, ih]

/-- C10: for a module path of the form `{p}{sep}v{N}` (`sep` being `/` or
`.`, `N` in decimal), `otherVersions` returns the candidates with suffixes
`v(N-1)` down to `v2` in descending order using the same separator,
followed by the bare prefix as the last element; for a path in which the
major-version pattern does not occur it returns the empty list. -/
theorem C10_otherVersions_spec :
    (∀ (p : Str) (sep : Char) (n : Nat), (sep = '/' ∨ sep = '.') → n ≤ 2 ^ 63 - 1 →
      otherVersions (p ++ sep :: 'v' :: natToDigits n)
        = (downTo2 (n - 1)).map (fun v => p ++ [sep] ++ str "v" ++ natToDigits v) ++ [p])
    ∧ (∀ mods : Str, findMajorVersion mods = none → otherVersions mods = []) := by
  constructor
  · intro p sep n hsep hlt
    rw [otherVersions, findMajorVersion_append p sep (natToDigits n) hsep
      (natToDigits_ne_nil n) (natToDigits_all_digits n)]
    have hv : atoiClamped (natToDigits n) = n := by
      rw [atoiClamped, valDigits_natToDigits]
      omega
    simp [hv]
  · intro mods h
    rw [otherVersions, h]

/-- Witness for C10 at `example.com/pkg/v4` (candidates v3, v2, then the
bare prefix) and at the suffix-free `example.com/pkg` (no candidates). -/
theorem C10_otherVersions_spec_witness :
    otherVersions (str "example.com/pkg/v4")
      = [str "example.com/pkg/v3", str "example.com/pkg/v2", str "example.com/pkg"]
    ∧ otherVersions (str "example.com/pkg") = [] :=
  ⟨(C10_otherVersions_spec.1 (str "example.com/pkg") '/' 4 (.inl rfl)
      (by norm_num)).trans (by decide),
   C10_otherVersions_spec.2 (str "example.com/pkg") (by decide)⟩

/-! ## Claim C9: estimate swallows getGolangBinaries errors -/

/-- C9: when retrieving the already-packaged set fails, `estimate`
returns a nil error (success) and prints no dependency report at all —
the early `return nil` at estimate.go lines 138-141. -/
theorem C9_golangBinaries_error_swallowed
    (w : EstimateWorld) (importpath : Str) (fuel : Nat)
    (h1 : w.gopathTemp = some ()) (h2 : w.repodirTemp = some ())
    (h3 : w.writeDummyMod = some ()) (h4 : w.goGet1 = some ())
    (h5 : w.removeVendorRes = some false)
    (h6 : ∃ out, w.modGraphOut = some out)
    (hbin : w.golangBinaries = none) :
    estimate w importpath fuel = some (.ok []) := by
  obtain ⟨out, h6⟩ := h6
  simp [estimate, h1, h2, h3, h4, h5, h6, hbin]

/-- The diamond world with the packaged-set retrieval failing. -/
def diamondWorldNoBinaries : EstimateWorld :=
  { diamondWorld with golangBinaries := none }

/-- Witness for C9 on the concrete diamond pipeline. -/
theorem C9_golangBinaries_error_swallowed_witness :
    estimate diamondWorldNoBinaries (str "r") 10 = some (.ok []) :=
  C9_golangBinaries_error_swallowed diamondWorldNoBinaries (str "r") 10
    rfl rfl rfl rfl rfl ⟨diamondGraphOut, rfl⟩ rfl

/-! ## Claim C5: the walk does not terminate on cyclic graphs -/

theorem alistGet_alistSet {b : Type} (l : List (Str × b)) (k : Str) (v : b) (m : Str) :
    alistGet (alistSet l k v) m = if m = k then some v else alistGet l m := by
  induction l with
  | nil =>
    by_cases h : m = k
    · subst h
      simp [alistSet, alistGet]
    · have h' : ¬ k = m := fun hh => h hh.symm
      simp [alistSet, alistGet, h, h']
  | cons hd tl ih =>
    obtain ⟨k', v'⟩ := hd
    by_cases hk : k' = k
    · subst hk
      by_cases hm : m = k'
      · subst hm
        simp [alistSet, alistGet]
      · have hm' : ¬ k' = m := fun hh => hm hh.symm
        simp [alistSet, alistGet, hm, hm']
    · by_cases hm : k' = m
      · subst hm
        simp [alistSet, alistGet, hk]
      · simp [alistSet, alistGet, hk, hm, ih]

theorem foldlM_single_none {f : VisitSt → Str → Option VisitSt} {s : VisitSt} {c : Str}
    (h : f s c = none) : List.foldlM f s [c] = none := by
  simp [List.foldlM, h]

/-- `go mod graph` output containing a dependency cycle between `a` and
`b` (module graphs can contain cycles, e.g. through mutually dependent
modules). -/
def cyclicGraphOut : Str := str "dummymod r@v1\nr@v1 a@v1\na@v1 b@v1\nb@v1 a@v1"

/-- The walker environment with nothing packaged and no resolvable repo
roots. -/
def envC : EstimateEnv := { packaged := [], repoRoot? := fun _ => none }

/-- The children function of the cyclic graph. -/
def gC : Str → List Str := graphChildren (buildGraph (str "r") cyclicGraphOut)

example : gC (str "r") = [str "a@v1"] := by decide
example : gC (str "a@v1") = [str "b@v1"] := by decide
example : gC (str "b@v1") = [str "a@v1"] := by decide

/-- Once `a` and `b` are both in the `needed` map, visiting either node
of the cycle exhausts any amount of fuel: each visit takes the repeat
branch, which falls through to the children loop and visits the other
node. -/
theorem visit_cyc_needed : ∀ (fuel : Nat) (st : VisitSt) (i j : Nat),
    (alistGet st.needed (str "a")).isSome = true →
    (alistGet st.needed (str "b")).isSome = true →
    visit envC gC fuel (str "a@v1") i st = none
    ∧ visit envC gC fuel (str "b@v1") j st = none := by
  intro fuel
  induction fuel with
  | zero => exact fun st i j _ _ => ⟨rfl, rfl⟩
  | succ f ih =>
    intro st i j hA hB
    obtain ⟨ca, hca⟩ := Option.isSome_iff_exists.mp hA
    obtain ⟨cb, hcb⟩ := Option.isSome_iff_exists.mp hB
    have hsa : stripMod (str "a@v1") = str "a" := by decide
    have hsb : stripMod (str "b@v1") = str "b" := by decide
    have hga : gC (str "a@v1") = [str "b@v1"] := by decide
    have hgb : gC (str "b@v1") = [str "a@v1"] := by decide
    constructor
    · simp only [visit, hsa, hca, hga]
      refine foldlM_single_none ((ih _ 0 (i + 1) ?_ ?_).2)
      · show (alistGet (alistSet st.needed (str "a") (ca + 1)) (str "a")).isSome = true
        rw [alistGet_alistSet, if_pos rfl]
        rfl
      · show (alistGet (alistSet st.needed (str "a") (ca + 1)) (str "b")).isSome = true
        rw [alistGet_alistSet, if_neg (by decide)]
        exact hB
    · simp only [visit, hsb, hcb, hgb]
      refine foldlM_single_none ((ih _ (j + 1) 0 ?_ ?_).1)
      · show (alistGet (alistSet st.needed (str "b") (cb + 1)) (str "a")).isSome = true
        rw [alistGet_alistSet, if_neg (by decide)]
        exact hA
      · show (alistGet (alistSet st.needed (str "b") (cb + 1)) (str "b")).isSome = true
        rw [alistGet_alistSet, if_pos rfl]
        rfl

/-- A fully successful pipeline over the cyclic graph. -/
def cyclicWorld : EstimateWorld :=
  { gopathTemp := some (), repodirTemp := some (), writeDummyMod := some ()
    goGet1 := some (), removeVendorRes := some false, goGet2 := some ()
    modGraphOut := some cyclicGraphOut
    golangBinaries := some []
    repoRoot? := fun _ => none }

/-- Walking the cyclic graph from the root exhausts any amount of fuel:
after `r`, `a` and `b` are first visited, the walk revisits `a` and `b`
forever through the repeat branch. -/
theorem visit_cyc_root (fuel : Nat) :
    visit envC gC fuel (str "r") 0 st0 = none := by
  cases fuel with
  | zero => rfl
  | succ f =>
    show List.foldlM (fun s c => visit envC gC f c 1 s)
      { lines := [.req 0 (str "r") (str "r") none false]
        seen := [str "r"], rrseen := [str "r"]
        needed := [(str "r", 1)] } [str "a@v1"] = none
    refine foldlM_single_none ?_
    cases f with
    | zero => rfl
    | succ f' =>
      show List.foldlM (fun s c => visit envC gC f' c 2 s)
        { lines := [.req 0 (str "r") (str "r") none false,
                    .req 1 (str "a") (str "a") none false]
          seen := [str "a", str "r"], rrseen := [str "a", str "r"]
          needed := [(str "a", 1), (str "r", 1)] } [str "b@v1"] = none
      refine foldlM_single_none ?_
      cases f' with
      | zero => rfl
      | succ f'' =>
        show List.foldlM (fun s c => visit envC gC f'' c 3 s)
          { lines := [.req 0 (str "r") (str "r") none false,
                      .req 1 (str "a") (str "a") none false,
                      .req 2 (str "b") (str "b") none false]
            seen := [str "b", str "a", str "r"], rrseen := [str "b", str "a", str "r"]
            needed := [(str "b", 1), (str "a", 1), (str "r", 1)] } [str "a@v1"] = none
        exact foldlM_single_none
          ((visit_cyc_needed f'' _ 3 0 (by decide) (by decide)).1)

/-- C5: the claim is false of the code as written — on a cyclic
dependency graph the walk recurses forever (no fuel bound suffices),
because a repeat visit falls through to the children loop instead of
returning; the `seen` map does not guard the `needed` branch. -/
theorem C5_cyclic_graph_diverges (fuel : Nat) :
    estimate cyclicWorld (str "r") fuel = none := by
  show (match visit envC gC fuel (str "r") 0 st0 with
        | none => none
        | some st => some (Except.ok st.lines)) = none
  rw [visit_cyc_root fuel]

/-! ## Claim C3: which nodes get a "needed" line, and exactly once -/

/-- A module (stripped name) at which the walk stops descending and emits
no line: the `go`/`toolchain` pseudo-modules, an exact hit in the
packaged set, or — when no alternate major version is packaged — a
repo-root hit.  (An alternate-major-version hit does NOT stop the walk:
it is emitted, annotated, and its children are walked.) -/
def stops (env : EstimateEnv) (m : Str) : Prop :=
  m = str "go" ∨ m = str "toolchain" ∨ m ∈ env.packaged
  ∨ ((otherVersions m).find? (fun ov => decide (ov ∈ env.packaged)) = none
      ∧ ((env.repoRoot? m).getD m) ∈ env.packaged)

instance (env : EstimateEnv) (m : Str) : Decidable (stops env m) := by
  unfold stops
  infer_instance

/-- Reachability through non-stopping nodes: the walk started at node
name `x` eventually visits node name `y`. -/
inductive Reach (env : EstimateEnv) (g : Str → List Str) : Str → Str → Prop
  | refl (x : Str) : Reach env g x x
  | step (x c y : Str) : ¬ stops env (stripMod x) → c ∈ g x →
      Reach env g c y → Reach env g x y

/-- Whether a report line is a first-visit ("needed") line for module `m`. -/
def isReqFor (m : Str) : RLine → Bool
  | .req _ mods _ _ _ => mods == m
  | .rpt _ _ _ => false

/-- Number of "needed" (non-repeat) lines for module `m` in the report. -/
def countReq (lines : List RLine) (m : Str) : Nat := lines.countP (isReqFor m)

theorem countReq_append (ls ls' : List RLine) (m : Str) :
    countReq (ls ++ ls') m = countReq ls m + countReq ls' m :=
  List.countP_append _ _ _

theorem countReq_rpt (i : Nat) (mods : Str) (c : Nat) (m : Str) :
    countReq [.rpt i mods c] m = 0 := by
  simp [countReq, isReqFor]

theorem countReq_req (i : Nat) (mods rr : Str) (dv : Option Str) (b : Bool) (m : Str) :
    countReq [.req i mods rr dv b] m = if mods = m then 1 else 0 := by
  by_cases h : mods = m <;> simp [countReq, isReqFor, List.countP_cons, h]

/-- The state invariant of the walk: a seen module is needed exactly when
it does not stop; needed modules are seen; and the report has exactly one
"needed" line for every seen non-stopping module and none otherwise. -/
def WalkInv (env : EstimateEnv) (st : VisitSt) : Prop :=
  (∀ m, m ∈ st.seen → (alistGet st.needed m = none ↔ stops env m))
  ∧ (∀ m c, alistGet st.needed m = some c → m ∈ st.seen)
  ∧ (∀ m, countReq st.lines m = if m ∈ st.seen ∧ ¬ stops env m then 1 else 0)

/-- Postcondition of a completed subwalk rooted at `name`: the invariant
is preserved, `seen` grows monotonically, and it grows by exactly the
modules of the names reachable from `name`. -/
def VisitOk (env : EstimateEnv) (g : Str → List Str) (name : Str) (st st' : VisitSt) : Prop :=
  WalkInv env st'
  ∧ (∀ m, m ∈ st.seen → m ∈ st'.seen)
  ∧ (∀ m, m ∈ st'.seen → m ∈ st.seen ∨ ∃ nm, Reach env g name nm ∧ stripMod nm = m)
  ∧ (∀ nm, Reach env g name nm → stripMod nm ∈ st'.seen)

/-- Postcondition of the children loop over `cs`. -/
def FoldOk (env : EstimateEnv) (g : Str → List Str) (cs : List Str) (st st' : VisitSt) : Prop :=
  WalkInv env st'
  ∧ (∀ m, m ∈ st.seen → m ∈ st'.seen)
  ∧ (∀ m, m ∈ st'.seen → m ∈ st.seen ∨ ∃ c ∈ cs, ∃ nm, Reach env g c nm ∧ stripMod nm = m)
  ∧ (∀ c ∈ cs, ∀ nm, Reach env g c nm → stripMod nm ∈ st'.seen)

theorem visit_eq_needed (env : EstimateEnv) (g : Str → List Str) (f : Nat)
    (name : Str) (indent : Nat) (st : VisitSt) (count : Nat)
    (heq : alistGet st.needed (stripMod name) = some count) :
    visit env g (f + 1) name indent st
      = List.foldlM (fun s c => visit env g f c (indent + 1) s)
          { st with needed := alistSet st.needed (stripMod name) (count + 1)
                    lines := st.lines ++ [.rpt indent (stripMod name) (count + 1)] }
          (g name) := by
  simp only [visit, heq]

theorem visit_eq_seen (env : EstimateEnv) (g : Str → List Str) (f : Nat)
    (name : Str) (indent : Nat) (st : VisitSt)
    (heq : alistGet st.needed (stripMod name) = none)
    (hseen : stripMod name ∈ st.seen) :
    visit env g (f + 1) name indent st = some st := by
  simp only [visit, heq, if_pos hseen]

theorem visit_eq_stop_go (env : EstimateEnv) (g : Str → List Str) (f : Nat)
    (name : Str) (indent : Nat) (st : VisitSt)
    (heq : alistGet st.needed (stripMod name) = none)
    (hseen : stripMod name ∉ st.seen)
    (hgo : stripMod name = str "go" ∨ stripMod name = str "toolchain") :
    visit env g (f + 1) name indent st
      = some { st with seen := stripMod name :: st.seen } := by
  simp only [visit, heq, if_neg hseen, if_pos hgo]

theorem visit_eq_stop_packaged (env : EstimateEnv) (g : Str → List Str) (f : Nat)
    (name : Str) (indent : Nat) (st : VisitSt)
    (heq : alistGet st.needed (stripMod name) = none)
    (hseen : stripMod name ∉ st.seen)
    (hgo : ¬ (stripMod name = str "go" ∨ stripMod name = str "toolchain"))
    (hpk : stripMod name ∈ env.packaged) :
    visit env g (f + 1) name indent st
      = some { st with seen := stripMod name :: st.seen } := by
  simp only [visit, heq, if_neg hseen, if_neg hgo, if_pos hpk]

theorem visit_eq_stop_reporoot (env : EstimateEnv) (g : Str → List Str) (f : Nat)
    (name : Str) (indent : Nat) (st : VisitSt)
    (heq : alistGet st.needed (stripMod name) = none)
    (hseen : stripMod name ∉ st.seen)
    (hgo : ¬ (stripMod name = str "go" ∨ stripMod name = str "toolchain"))
    (hpk : stripMod name ∉ env.packaged)
    (hrr : (otherVersions (stripMod name)).find?
            (fun ov => decide (ov ∈ env.packaged)) = none
          ∧ ((env.repoRoot? (stripMod name)).getD (stripMod name)) ∈ env.packaged) :
    visit env g (f + 1) name indent st
      = some { st with seen := stripMod name :: st.seen } := by
  simp only [visit, heq, if_neg hseen, if_neg hgo, if_neg hpk, if_pos hrr]

theorem visit_eq_emit (env : EstimateEnv) (g : Str → List Str) (f : Nat)
    (name : Str) (indent : Nat) (st : VisitSt)
    (heq : alistGet st.needed (stripMod name) = none)
    (hseen : stripMod name ∉ st.seen)
    (hgo : ¬ (stripMod name = str "go" ∨ stripMod name = str "toolchain"))
    (hpk : stripMod name ∉ env.packaged)
    (hrr : ¬ ((otherVersions (stripMod name)).find?
            (fun ov => decide (ov ∈ env.packaged)) = none
          ∧ ((env.repoRoot? (stripMod name)).getD (stripMod name)) ∈ env.packaged)) :
    visit env g (f + 1) name indent st
      = List.foldlM (fun s c => visit env g f c (indent + 1) s)
          { st with
            seen := stripMod name :: st.seen
            lines := st.lines ++
              [.req indent (stripMod name)
                ((env.repoRoot? (stripMod name)).getD (stripMod name))
                ((otherVersions (stripMod name)).find? (fun ov => decide (ov ∈ env.packaged)))
                (decide (((env.repoRoot? (stripMod name)).getD (stripMod name)) ∈ st.rrseen))]
            rrseen := ((env.repoRoot? (stripMod name)).getD (stripMod name)) :: st.rrseen
            needed := (stripMod name, 1) :: st.needed }
          (g name) := by
  simp only [visit, heq, if_neg hseen, if_neg hgo, if_neg hpk, if_neg hrr]

theorem fold_ok (env : EstimateEnv) (g : Str → List Str) (fuel : Nat)
    (H : ∀ name indent st st', visit env g fuel name indent st = some st' →
      WalkInv env st → VisitOk env g name st st') :
    ∀ (cs : List Str) (indent : Nat) (st st' : VisitSt),
      List.foldlM (fun s c => visit env g fuel c indent s) st cs = some st' →
      WalkInv env st → FoldOk env g cs st st' := by
  intro cs
  induction cs with
  | nil =>
    intro indent st st' h hinv
    rw [List.foldlM_nil] at h
    cases h
    exact ⟨hinv, fun m hm => hm, fun m hm => .inl hm,
      fun c hc => absurd hc (List.not_mem_nil c)⟩
  | cons c cs ih =>
    intro indent st st' h hinv
    rw [List.foldlM_cons] at h
    obtain ⟨s1, h1, h2⟩ := Option.bind_eq_some.mp h
    obtain ⟨inv1, mono1, snd1, cmp1⟩ := H c indent st s1 h1 hinv
    obtain ⟨inv2, mono2, snd2, cmp2⟩ := ih indent s1 st' h2 inv1
    refine ⟨inv2, fun m hm => mono2 m (mono1 m hm), ?_, ?_⟩
    · intro m hm
      rcases snd2 m hm with hm1 | ⟨c', hc', nm, hr, hs⟩
      · rcases snd1 m hm1 with hm0 | ⟨nm, hr, hs⟩
        · exact .inl hm0
        · exact .inr ⟨c, List.mem_cons_self c cs, nm, hr, hs⟩
      · exact .inr ⟨c', List.mem_cons_of_mem c hc', nm, hr, hs⟩
    · intro c' hc' nm hr
      rcases List.mem_cons.mp hc' with rfl | hc'
      · exact mono2 _ (cmp1 nm hr)
      · exact cmp2 c' hc' nm hr

theorem visitOk_stop (env : EstimateEnv) (g : Str → List Str) (name : Str) (st : VisitSt)
    (hinv : WalkInv env st)
    (heq : alistGet st.needed (stripMod name) = none)
    (hseen : stripMod name ∉ st.seen)
    (hstop : stops env (stripMod name)) :
    VisitOk env g name st { st with seen := stripMod name :: st.seen } := by
  obtain ⟨i1, i2, i3⟩ := hinv
  refine ⟨⟨?_, ?_, ?_⟩, ?_, ?_, ?_⟩
  · intro m hm
    rcases List.mem_cons.mp hm with rfl | hm
    · exact iff_of_true heq hstop
    · exact i1 m hm
  · intro m c hc
    exact List.mem_cons_of_mem _ (i2 m c hc)
  · intro m
    show countReq st.lines m = _
    rw [i3 m]
    by_cases hm : m = stripMod name
    · subst hm
      simp [hseen, hstop]
    · simp [List.mem_cons, hm]
  · exact fun m hm => List.mem_cons_of_mem _ hm
  · intro m hm
    rcases List.mem_cons.mp hm with rfl | hm
    · exact .inr ⟨name, .refl name, rfl⟩
    · exact .inl hm
  · intro nm hr
    cases hr with
    | refl => exact List.mem_cons_self _ _
    | step _ c _ hns hc hr' => exact absurd hstop hns

theorem visit_ok (env : EstimateEnv) (g : Str → List Str) :
    ∀ (fuel : Nat) (name : Str) (indent : Nat) (st st' : VisitSt),
      visit env g fuel name indent st = some st' → WalkInv env st →
      VisitOk env g name st st' := by
  intro fuel
  induction fuel with
  | zero =>
    intro name indent st st' h
    exact absurd h (by simp [visit])
  | succ f ih =>
    intro name indent st st' h hinv
    have Hfold := fold_ok env g f ih
    obtain ⟨i1, i2, i3⟩ := hinv
    cases hne : alistGet st.needed (stripMod name) with
    | some count =>
      rw [visit_eq_needed env g f name indent st count hne] at h
      have hseenm : stripMod name ∈ st.seen := i2 _ _ hne
      have hnstop : ¬ stops env (stripMod name) := by
        intro hs
        rw [← (i1 _ hseenm)] at hs
        rw [hne] at hs
        cases hs
      have hinvR : WalkInv env
          { st with needed := alistSet st.needed (stripMod name) (count + 1)
                    lines := st.lines ++ [.rpt indent (stripMod name) (count + 1)] } := by
        refine ⟨?_, ?_, ?_⟩
        · intro m hm
          show alistGet (alistSet st.needed (stripMod name) (count + 1)) m = none
            ↔ stops env m
          rw [alistGet_alistSet]
          by_cases hm2 : m = stripMod name
          · subst hm2
            rw [if_pos rfl]
            exact iff_of_false (by simp) hnstop
          · rw [if_neg hm2]
            exact i1 m hm
        · intro m c hc
          dsimp only at hc
          rw [alistGet_alistSet] at hc
          show m ∈ st.seen
          by_cases hm2 : m = stripMod name
          · subst hm2
            exact hseenm
          · rw [if_neg hm2] at hc
            exact i2 m c hc
        · intro m
          show countReq (st.lines ++ [.rpt indent (stripMod name) (count + 1)]) m = _
          rw [countReq_append, countReq_rpt, Nat.add_zero]
          exact i3 m
      obtain ⟨inv2, mono2, snd2, cmp2⟩ := Hfold (g name) (indent + 1) _ st' h hinvR
      refine ⟨inv2, fun m hm => mono2 m hm, ?_, ?_⟩
      · intro m hm
        rcases snd2 m hm with hm1 | ⟨c, hc, nm, hr, hs⟩
        · exact .inl hm1
        · exact .inr ⟨nm, .step name c nm hnstop hc hr, hs⟩
      · intro nm hr
        cases hr with
        | refl => exact mono2 _ hseenm
        | step _ c _ hns hc hr' => exact cmp2 c hc _ hr'
    | none =>
      by_cases hseen : stripMod name ∈ st.seen
      · rw [visit_eq_seen env g f name indent st hne hseen] at h
        cases h
        refine ⟨⟨i1, i2, i3⟩, fun m hm => hm, fun m hm => .inl hm, ?_⟩
        intro nm hr
        cases hr with
        | refl => exact hseen
        | step _ c _ hns hc hr' => exact absurd ((i1 _ hseen).mp hne) hns
      · by_cases hgo : stripMod name = str "go" ∨ stripMod name = str "toolchain"
        · rw [visit_eq_stop_go env g f name indent st hne hseen hgo] at h
          cases h
          refine visitOk_stop env g name st ⟨i1, i2, i3⟩ hne hseen ?_
          rcases hgo with hg | hg
          · exact .inl hg
          · exact .inr (.inl hg)
        · by_cases hpk : stripMod name ∈ env.packaged
          · rw [visit_eq_stop_packaged env g f name indent st hne hseen hgo hpk] at h
            cases h
            exact visitOk_stop env g name st ⟨i1, i2, i3⟩ hne hseen
              (.inr (.inr (.inl hpk)))
          · by_cases hrr : (otherVersions (stripMod name)).find?
                  (fun ov => decide (ov ∈ env.packaged)) = none
                ∧ ((env.repoRoot? (stripMod name)).getD (stripMod name)) ∈ env.packaged
            · rw [visit_eq_stop_reporoot env g f name indent st hne hseen hgo hpk hrr] at h
              cases h
              exact visitOk_stop env g name st ⟨i1, i2, i3⟩ hne hseen
                (.inr (.inr (.inr hrr)))
            · rw [visit_eq_emit env g f name indent st hne hseen hgo hpk hrr] at h
              have hnstop : ¬ stops env (stripMod name) := by
                intro hs
                rcases hs with hs | hs | hs | hs
                · exact hgo (.inl hs)
                · exact hgo (.inr hs)
                · exact hpk hs
                · exact hrr hs
              have hinvE : WalkInv env
                  { st with
                    seen := stripMod name :: st.seen
                    lines := st.lines ++
                      [.req indent (stripMod name)
                        ((env.repoRoot? (stripMod name)).getD (stripMod name))
                        ((otherVersions (stripMod name)).find?
                          (fun ov => decide (ov ∈ env.packaged)))
                        (decide (((env.repoRoot? (stripMod name)).getD (stripMod name))
                          ∈ st.rrseen))]
                    rrseen := ((env.repoRoot? (stripMod name)).getD (stripMod name))
                      :: st.rrseen
                    needed := (stripMod name, 1) :: st.needed } := by
                refine ⟨?_, ?_, ?_⟩
                · intro m hm
                  show (if stripMod name = m then some 1
                        else alistGet st.needed m) = none ↔ _
                  rcases List.mem_cons.mp hm with rfl | hm
                  · rw [if_pos rfl]
                    exact iff_of_false (by simp) hnstop
                  · by_cases hm2 : stripMod name = m
                    · subst hm2
                      rw [if_pos rfl]
                      exact iff_of_false (by simp) hnstop
                    · rw [if_neg hm2]
                      exact i1 m hm
                · intro m c hc
                  show m ∈ stripMod name :: st.seen
                  rw [show alistGet ((stripMod name, 1) :: st.needed) m
                      = if stripMod name = m then some 1 else alistGet st.needed m
                      from rfl] at hc
                  by_cases hm2 : stripMod name = m
                  · subst hm2
                    exact List.mem_cons_self _ _
                  · rw [if_neg hm2] at hc
                    exact List.mem_cons_of_mem _ (i2 m c hc)
                · intro m
                  show countReq (st.lines ++ [_]) m = _
                  rw [countReq_append, countReq_req, i3 m]
                  by_cases hm : stripMod name = m
                  · subst hm
                    simp [hseen, hnstop]
                  · have hm' : ¬ m = stripMod name := fun hh => hm hh.symm
                    simp [List.mem_cons, hm, hm']
              obtain ⟨inv2, mono2, snd2, cmp2⟩ := Hfold (g name) (indent + 1) _ st' h hinvE
              refine ⟨inv2, fun m hm => mono2 m (List.mem_cons_of_mem _ hm), ?_, ?_⟩
              · intro m hm
                rcases snd2 m hm with hm1 | ⟨c, hc, nm, hr, hs⟩
                · rcases List.mem_cons.mp hm1 with rfl | hm1
                  · exact .inr ⟨name, .refl name, rfl⟩
                  · exact .inl hm1
                · exact .inr ⟨nm, .step name c nm hnstop hc hr, hs⟩
              · intro nm hr
                cases hr with
                | refl => exact mono2 _ (List.mem_cons_self _ _)
                | step _ c _ hns hc hr' => exact cmp2 c hc _ hr'

/-- A root depending on a module whose alternate major version (bare
prefix `m.com/x`) is packaged. -/
def altMajorGraphOut : Str := str "dummymod r@v1\nr@v1 m.com/x/v2@v2.0.0"

/-- Pipeline over that graph with `m.com/x` in the packaged set. -/
def altMajorWorld : EstimateWorld :=
  { gopathTemp := some (), repodirTemp := some (), writeDummyMod := some ()
    goGet1 := some (), removeVendorRes := some false, goGet2 := some ()
    modGraphOut := some altMajorGraphOut
    golangBinaries := some [str "m.com/x"]
    repoRoot? := fun _ => none }

/-- C3, as stated, is false: a node matched as packaged through the
alternate-major-version heuristic (`m.com/x` packaged, node
`m.com/x/v2`) is NOT treated like a packaged node — it still produces an
output line (annotated with the Debian version) and is marked needed,
contradicting "nodes matched as packaged produce no line". -/
theorem C3_counterexample :
    estimate altMajorWorld (str "r") 10
      = some (.ok
          [ .req 0 (str "r") (str "r") none false,
            .req 1 (str "m.com/x/v2") (str "m.com/x/v2") (some (str "m.com/x")) false ]) := by
  decide

/-- C3 (amended): in a completed walk from the root on the empty initial
state, a module has exactly one "needed" (non-repeat) line iff it is the
stripped name of a node reachable from the root through non-stopping
nodes and is itself non-stopping — where a module stops the walk (no
line, children not enumerated) iff it is `go`/`toolchain`, an exact
member of the packaged set, or (only when no alternate major version is
packaged) a repo-root match; alternate-major-version matches do get a
line and their children are enumerated. -/
theorem C3_needed_lines_iff_reachable
    (env : EstimateEnv) (g : Str → List Str) (fuel : Nat) (root : Str) (st' : VisitSt)
    (hrun : visit env g fuel root 0 st0 = some st') (m : Str) :
    countReq st'.lines m = 1
      ↔ ((∃ nm, Reach env g root nm ∧ stripMod nm = m) ∧ ¬ stops env m) := by
  have hinv0 : WalkInv env st0 := by
    refine ⟨?_, ?_, ?_⟩
    · intro m hm
      exact absurd hm (List.not_mem_nil m)
    · intro m c hc
      simp [st0, alistGet] at hc
    · intro m
      simp [st0, countReq]
  obtain ⟨⟨j1, j2, j3⟩, mono, snd, cmp⟩ := visit_ok env g fuel root 0 st0 st' hrun hinv0
  rw [j3 m]
  constructor
  · intro h1
    by_cases hc : m ∈ st'.seen ∧ ¬ stops env m
    · rcases snd m hc.1 with hm | hm
      · exact absurd hm (List.not_mem_nil m)
      · exact ⟨hm, hc.2⟩
    · rw [if_neg hc] at h1
      exact absurd h1 (by decide)
  · rintro ⟨⟨nm, hr, hs⟩, hns⟩
    rw [if_pos ⟨hs ▸ cmp nm hr, hns⟩]

/-- Children function of the diamond graph. -/
def gD : Str → List Str := graphChildren (buildGraph (str "r") diamondGraphOut)

/-- Final state of the diamond walk. -/
def stDiamond : VisitSt :=
  { lines :=
      [ .req 0 (str "r") (str "r") none false,
        .req 1 (str "a") (str "a") none false,
        .req 2 (str "c") (str "c") none false,
        .req 3 (str "d") (str "d") none false,
        .req 1 (str "b") (str "b") none false,
        .rpt 2 (str "c") 2,
        .rpt 3 (str "d") 2 ]
    seen := [str "b", str "d", str "c", str "a", str "r"]
    rrseen := [str "b", str "d", str "c", str "a", str "r"]
    needed := [(str "b", 1), (str "d", 2), (str "c", 2), (str "a", 1), (str "r", 1)] }

/-- Witness for C3 (amended) on the completed diamond walk, instantiated
at module `c`. -/
theorem C3_needed_lines_iff_reachable_witness :
    countReq stDiamond.lines (str "c") = 1
      ↔ ((∃ nm, Reach envC gD (str "r") nm ∧ stripMod nm = str "c")
          ∧ ¬ stops envC (str "c")) :=
  C3_needed_lines_iff_reachable envC gD 10 (str "r") stDiamond (by decide) (str "c")

/-! ## Claim C7: Debian version ordering of the produced versions

Modelled from the spec: the claim appeals to Debian (dpkg) version
comparison, which is external to this repository.  The functions below
model dpkg's `verrevcmp` algorithm (deb-version(7)): alternate non-digit
and digit parts; non-digit parts compare character-wise with `~` before
everything (including the end of a part), letters before other
characters; digit parts compare numerically. -/

/-- Character weight in non-digit parts: digits and end-of-string are 0,
letters their code point, `~` is -1, anything else its code point plus
256. -/
def dpkgOrder (c : Char) : Int :=
  if c.isDigit then 0
  else if c.isAlpha then (c.toNat : Int)
  else if c = '~' then -1
  else if c.toNat ≠ 0 then (c.toNat : Int) + 256
  else 0

/-- Weight of the first character, 0 at the end of the string. -/
def headOrder : Str → Int
  | [] => 0
  | c :: _ => dpkgOrder c

/-- Does the string start with a non-digit character? -/
def headNonDigit : Str → Bool
  | [] => false
  | c :: _ => !c.isDigit

/-- The non-digit comparison loop of verrevcmp: consume characters while
either side has a non-digit head; an unequal pair of weights decides the
comparison (`Sum.inl`), otherwise both remainders start with digits or
are empty (`Sum.inr`).  Structural recursion on a fuel bound so that the
kernel can evaluate it; any fuel above the combined length gives the
same result. -/
def cmpNonDigitsF : Nat → Str → Str → Int ⊕ (Str × Str)
  | 0, a, b => .inr (a, b)
  | fuel + 1, a, b =>
    if headNonDigit a = true ∨ headNonDigit b = true then
      if headOrder a = headOrder b then cmpNonDigitsF fuel a.tail b.tail
      else .inl (headOrder a - headOrder b)
    else .inr (a, b)

/-- The non-digit loop at its sufficient fuel. -/
def cmpNonDigits (a b : Str) : Int ⊕ (Str × Str) :=
  cmpNonDigitsF (a.length + b.length + 1) a b

theorem headNonDigit_ne_nil {l : Str} (h : headNonDigit l = true) : l ≠ [] := by
  cases l <;> simp_all [headNonDigit]

theorem tail_sum_lt {a b : Str} (h : headNonDigit a = true ∨ headNonDigit b = true) :
    a.tail.length + b.tail.length < a.length + b.length := by
  have ha : a.tail.length ≤ a.length := by cases a <;> simp
  have hb : b.tail.length ≤ b.length := by cases b <;> simp
  rcases h with h | h
  · have hne := headNonDigit_ne_nil h
    cases a with
    | nil => exact absurd rfl hne
    | cons c t => simp only [List.tail_cons, List.length_cons]; omega
  · have hne := headNonDigit_ne_nil h
    cases b with
    | nil => exact absurd rfl hne
    | cons c t => simp only [List.tail_cons, List.length_cons]; omega

theorem cmpNonDigitsF_fuel : ∀ {f f' : Nat} {a b : Str},
    a.length + b.length < f → a.length + b.length < f' →
    cmpNonDigitsF f a b = cmpNonDigitsF f' a b := by
  intro f
  induction f with
  | zero => intro f' a b h; omega
  | succ g ih =>
    intro f' a b h h'
    cases f' with
    | zero => omega
    | succ g' =>
      simp only [cmpNonDigitsF]
      split
      · rename_i hcond
        split
        · exact ih (by have := tail_sum_lt hcond; omega)
            (by have := tail_sum_lt hcond; omega)
        · rfl
      · rfl

theorem cmpNonDigits_step (a b : Str) :
    cmpNonDigits a b
      = if headNonDigit a = true ∨ headNonDigit b = true then
          if headOrder a = headOrder b then cmpNonDigits a.tail b.tail
          else .inl (headOrder a - headOrder b)
        else .inr (a, b) := by
  show cmpNonDigitsF (a.length + b.length + 1) a b = _
  rw [cmpNonDigitsF]
  split
  · rename_i hcond
    split
    · exact cmpNonDigitsF_fuel (by have := tail_sum_lt hcond; omega)
        (by have := tail_sum_lt hcond; omega)
    · rfl
  · rfl

/-- Character-wise difference at the first differing position. -/
def firstDiff : Str → Str → Int
  | a :: as, b :: bs => if a = b then firstDiff as bs else (a.toNat : Int) - (b.toNat : Int)
  | _, _ => 0

/-- Comparison of two zero-stripped digit runs: more digits win,
otherwise the first differing digit decides. -/
def cmpDigits (ad bd : Str) : Int :=
  if bd.length < ad.length then 1
  else if ad.length < bd.length then -1
  else firstDiff ad bd

theorem cmpNonDigits_inr_spec : ∀ (n : Nat) (a b a1 b1 : Str), a.length + b.length ≤ n →
    cmpNonDigits a b = .inr (a1, b1) →
    (headNonDigit a1 = false ∧ headNonDigit b1 = false)
    ∧ ((a1 = a ∧ b1 = b) ∨ a1.length + b1.length < a.length + b.length) := by
  intro n
  induction n with
  | zero =>
    intro a b a1 b1 hn hc
    have ha : a = [] := by cases a <;> simp_all
    have hb : b = [] := by cases b <;> simp_all
    subst ha; subst hb
    rw [cmpNonDigits_step] at hc
    simp only [headNonDigit] at hc
    simp at hc
    exact ⟨⟨by simp [hc.1, headNonDigit], by simp [hc.2, headNonDigit]⟩, .inl ⟨hc.1, hc.2⟩⟩
  | succ n ih =>
    intro a b a1 b1 hn hc
    rw [cmpNonDigits_step] at hc
    split at hc
    · rename_i hcond
      split at hc
      · have hlt := tail_sum_lt hcond
        obtain ⟨hh, hrest⟩ := ih a.tail b.tail a1 b1 (by omega) hc
        refine ⟨hh, .inr ?_⟩
        rcases hrest with ⟨rfl, rfl⟩ | hlt2
        · exact hlt
        · omega
      · cases hc
    · rename_i hcond
      have h2 := hc
      injection h2 with h1
      injection h1 with h1 h2
      subst h1; subst h2
      push_neg at hcond
      refine ⟨⟨?_, ?_⟩, .inl ⟨rfl, rfl⟩⟩
      · simpa using hcond.1
      · simpa using hcond.2

theorem dropTake_length_le (l : Str) :
    ((l.dropWhile (fun c => c == '0')).drop
      ((l.dropWhile (fun c => c == '0')).takeWhile Char.isDigit).length).length ≤ l.length := by
  have h1 : (l.dropWhile (fun c => c == '0')).length ≤ l.length :=
    (List.dropWhile_sublist _).length_le
  rw [List.length_drop]
  omega

theorem dropTake_length_lt (l : Str) (hne : l ≠ []) (hd : headNonDigit l = false) :
    ((l.dropWhile (fun c => c == '0')).drop
      ((l.dropWhile (fun c => c == '0')).takeWhile Char.isDigit).length).length < l.length := by
  cases l with
  | nil => exact absurd rfl hne
  | cons c t =>
    have hcd : c.isDigit = true := by
      simpa [headNonDigit] using hd
    by_cases h0 : c = '0'
    · subst h0
      have hdw : (('0' :: t).dropWhile (fun c => c == '0')) = t.dropWhile (fun c => c == '0') := by
        simp [List.dropWhile]
      rw [hdw, List.length_drop]
      have h1 : (t.dropWhile (fun c => c == '0')).length ≤ t.length :=
        (List.dropWhile_sublist _).length_le
      simp only [List.length_cons]
      omega
    · have hbeq : (c == '0') = false := by simp [h0]
      have hstop : ((c :: t).dropWhile (fun c => c == '0')) = c :: t := by
        simp [List.dropWhile, hbeq]
      have htw : ((c :: t).takeWhile Char.isDigit) = c :: t.takeWhile Char.isDigit := by
        simp [List.takeWhile, hcd]
      rw [hstop, htw, List.length_drop]
      simp only [List.length_cons]
      omega

theorem verrevcmp_dec {a b a1 b1 : Str}
    (h0 : ¬(a = [] ∧ b = []))
    (hnd : cmpNonDigits a b = .inr (a1, b1)) :
    ((a1.dropWhile (fun c => c == '0')).drop
      ((a1.dropWhile (fun c => c == '0')).takeWhile Char.isDigit).length).length
    + ((b1.dropWhile (fun c => c == '0')).drop
      ((b1.dropWhile (fun c => c == '0')).takeWhile Char.isDigit).length).length
    < a.length + b.length := by
  obtain ⟨⟨hha, hhb⟩, hrest⟩ :=
    cmpNonDigits_inr_spec (a.length + b.length) a b a1 b1 le_rfl hnd
  rcases hrest with ⟨rfl, rfl⟩ | hlt
  · rcases not_and_or.mp h0 with ha | hb
    · have h1 := dropTake_length_lt a1 ha hha
      have h2 := dropTake_length_le b1
      omega
    · have h1 := dropTake_length_lt b1 hb hhb
      have h2 := dropTake_length_le a1
      omega
  · have h1 := dropTake_length_le a1
    have h2 := dropTake_length_le b1
    omega

/-- The body of dpkg verrevcmp, with a fuel bound for kernel
evaluability; any fuel above the combined length gives the same
result. -/
def verrevcmpF : Nat → Str → Str → Int
  | 0, _, _ => 0
  | fuel + 1, a, b =>
    if a = [] ∧ b = [] then 0
    else
      match cmpNonDigits a b with
      | .inl r => r
      | .inr (a1, b1) =>
        let a2 := a1.dropWhile (fun c => c == '0')
        let b2 := b1.dropWhile (fun c => c == '0')
        let ad := a2.takeWhile Char.isDigit
        let bd := b2.takeWhile Char.isDigit
        if cmpDigits ad bd = 0 then verrevcmpF fuel (a2.drop ad.length) (b2.drop bd.length)
        else cmpDigits ad bd

/-- dpkg's `verrevcmp` on (upstream-version) strings: negative when `a`
sorts before `b`, positive when after, 0 when equal. -/
def verrevcmp (a b : Str) : Int := verrevcmpF (a.length + b.length + 1) a b

theorem verrevcmpF_fuel : ∀ {f f' : Nat} {a b : Str},
    a.length + b.length < f → a.length + b.length < f' →
    verrevcmpF f a b = verrevcmpF f' a b := by
  intro f
  induction f with
  | zero => intro f' a b h; omega
  | succ g ih =>
    intro f' a b h h'
    cases f' with
    | zero => omega
    | succ g' =>
      simp only [verrevcmpF]
      split
      · rfl
      · rename_i h0
        cases hnd : cmpNonDigits a b with
        | inl r => rfl
        | inr p =>
          obtain ⟨a1, b1⟩ := p
          have hdec := verrevcmp_dec h0 hnd
          simp only []
          split
          · exact ih (by omega) (by omega)
          · rfl

theorem verrevcmp_step (a b : Str) :
    verrevcmp a b
      = if a = [] ∧ b = [] then 0
        else
          match cmpNonDigits a b with
          | .inl r => r
          | .inr (a1, b1) =>
            let a2 := a1.dropWhile (fun c => c == '0')
            let b2 := b1.dropWhile (fun c => c == '0')
            let ad := a2.takeWhile Char.isDigit
            let bd := b2.takeWhile Char.isDigit
            if cmpDigits ad bd = 0 then verrevcmp (a2.drop ad.length) (b2.drop bd.length)
            else cmpDigits ad bd := by
  show verrevcmpF (a.length + b.length + 1) a b = _
  rw [verrevcmpF]
  split
  · rfl
  · rename_i h0
    cases hnd : cmpNonDigits a b with
    | inl r => rfl
    | inr p =>
      obtain ⟨a1, b1⟩ := p
      have hdec := verrevcmp_dec h0 hnd
      simp only []
      split
      · exact verrevcmpF_fuel (by omega) (by omega)
      · rfl

example : verrevcmp (str "1.0~rc1") (str "1.0") < 0 := by decide
example : verrevcmp (str "1.0") (str "1.0+b1") < 0 := by decide
example : verrevcmp (str "7.8") (str "7.8+git20231114.deadbe") < 0 := by decide
example : verrevcmp (str "0.0~git20231114.abc123") (str "7.8") < 0 := by decide
example : verrevcmp (str "1.0") (str "1.0") = 0 := by decide
example : verrevcmp (str "7.8+git20231114.deadbe") (str "7.9") < 0 := by decide

theorem dpkgOrder_nonneg {c : Char} (h : c ≠ '~') : 0 ≤ dpkgOrder c := by
  unfold dpkgOrder
  by_cases h1 : c.isDigit
  · simp [h1]
  · by_cases h2 : c.isAlpha
    · simp [h1, h2]
    · simp [h1, h2, h]
      split <;> omega

theorem cmpNonDigits_cons_eq (c : Char) (x y : Str) (hc : c.isDigit = false) :
    cmpNonDigits (c :: x) (c :: y) = cmpNonDigits x y := by
  rw [cmpNonDigits_step]
  have h1 : headNonDigit (c :: x) = true := by simp [headNonDigit, hc]
  rw [if_pos (Or.inl h1),
    if_pos (show headOrder (c :: x) = headOrder (c :: y) from rfl)]
  rfl

theorem verrevcmp_cons_nondigit (c : Char) (x y : Str) (hc : c.isDigit = false) :
    verrevcmp (c :: x) (c :: y) = verrevcmp x y := by
  rw [verrevcmp_step (c :: x), verrevcmp_step x]
  rw [if_neg (by simp)]
  rw [cmpNonDigits_cons_eq c x y hc]
  by_cases hxy : x = [] ∧ y = []
  · obtain ⟨rfl, rfl⟩ := hxy
    rw [if_pos ⟨rfl, rfl⟩]
    decide
  · rw [if_neg hxy]

theorem drop_append_le : ∀ (l₁ l₂ : Str) (n : Nat), n ≤ l₁.length →
    (l₁ ++ l₂).drop n = l₁.drop n ++ l₂ := by
  intro l₁
  induction l₁ with
  | nil =>
    intro l₂ n h
    simp at h
    subst h
    simp
  | cons c t ih =>
    intro l₂ n h
    cases n with
    | zero => simp
    | succ m =>
      simp only [List.cons_append, List.drop_succ_cons]
      exact ih l₂ m (by simpa using h)

theorem dropWhile0_append (xs : Str) (c : Char) (r : Str) (hc : (c == '0') = false) :
    ((xs ++ c :: r).dropWhile (fun x => x == '0'))
      = xs.dropWhile (fun x => x == '0') ++ c :: r := by
  rw [List.dropWhile_append]
  split
  · rename_i hemp
    have he : xs.dropWhile (fun x => x == '0') = [] := by
      simpa [List.isEmpty_iff] using hemp
    rw [he]
    simp [List.dropWhile, hc]
  · rfl

theorem firstDiff_self : ∀ l : Str, firstDiff l l = 0
  | [] => rfl
  | c :: t => by simp [firstDiff, firstDiff_self t]

theorem cmpDigits_self (l : Str) : cmpDigits l l = 0 := by
  simp [cmpDigits, firstDiff_self]

theorem takeWhile_all {p : Char → Bool} : ∀ {l : Str}, l.all p = true → l.takeWhile p = l := by
  intro l
  induction l with
  | nil => intro _; rfl
  | cons c t ih =>
    intro h
    rw [List.all_cons, Bool.and_eq_true] at h
    simp [List.takeWhile_cons, h.1, ih h.2]

theorem dropWhile_head_not {p : Char → Bool} :
    ∀ {l : Str} {c : Char} {t : Str}, l.dropWhile p = c :: t → p c = false := by
  intro l
  induction l with
  | nil => intro c t h; cases h
  | cons d u ih =>
    intro c t h
    rw [List.dropWhile_cons] at h
    split at h
    · exact ih h
    · rename_i hp
      injection h with h1 _
      subst h1
      simpa using hp

theorem all_of_sublist {p : Char → Bool} {l l' : Str}
    (hs : l'.Sublist l) (h : l.all p = true) : l'.all p = true := by
  rw [List.all_eq_true] at h ⊢
  exact fun x hx => h x (hs.subset hx)

theorem isDigit_toNat {c : Char} (h : c.isDigit = true) :
    48 ≤ c.toNat ∧ c.toNat ≤ 57 := by
  simp only [Char.isDigit, Bool.and_eq_true, decide_eq_true_eq, ge_iff_le] at h
  obtain ⟨h1, h2⟩ := h
  rw [UInt32.le_def, BitVec.le_def] at h1 h2
  exact ⟨h1, h2⟩

theorem char_eq_of_toNat {c d : Char} (h : c.toNat = d.toNat) : c = d := by
  apply Char.ext
  exact UInt32.ext h

theorem digitVal_le_nine {c : Char} (h : c.isDigit = true) : digitVal c ≤ 9 := by
  have hb := isDigit_toNat h
  unfold digitVal
  omega

theorem digitVal_pos {c : Char} (h : c.isDigit = true) (h0 : c ≠ '0') : 1 ≤ digitVal c := by
  have hb := isDigit_toNat h
  have hne : c.toNat ≠ 48 := by
    intro hh
    exact h0 (char_eq_of_toNat (by rw [hh]; rfl))
  unfold digitVal
  omega

theorem digitVal_lt_of_toNat_lt {c d : Char} (hc : c.isDigit = true) (hd : d.isDigit = true) :
    digitVal c < digitVal d ↔ c.toNat < d.toNat := by
  have h1 := isDigit_toNat hc
  have h2 := isDigit_toNat hd
  unfold digitVal
  omega

theorem valDigits_cons (d : Char) (t : Str) :
    valDigits (d :: t) = digitVal d * 10 ^ t.length + valDigits t := by
  show t.foldl (fun acc c => 10 * acc + digitVal c) (10 * 0 + digitVal d) = _
  rw [valDigits_aux]
  simp

theorem val_lt_pow : ∀ (l : Str), l.all Char.isDigit = true →
    valDigits l < 10 ^ l.length := by
  intro l
  induction l with
  | nil => intro _; simp [valDigits]
  | cons d t ih =>
    intro h
    rw [List.all_cons, Bool.and_eq_true] at h
    rw [valDigits_cons, List.length_cons, pow_succ]
    have h1 := digitVal_le_nine h.1
    have h2 := ih h.2
    nlinarith [h1, h2]

theorem pow_le_val {d : Char} {t : Str} (hd : d.isDigit = true) (h0 : d ≠ '0') :
    10 ^ t.length ≤ valDigits (d :: t) := by
  rw [valDigits_cons]
  have h1 := digitVal_pos hd h0
  calc 10 ^ t.length = 1 * 10 ^ t.length := by ring
    _ ≤ digitVal d * 10 ^ t.length := Nat.mul_le_mul_right _ h1
    _ ≤ digitVal d * 10 ^ t.length + valDigits t := Nat.le_add_right _ _

theorem val_dropWhile0 : ∀ (l : Str), valDigits (l.dropWhile (fun c => c == '0')) = valDigits l := by
  intro l
  induction l with
  | nil => rfl
  | cons d t ih =>
    rw [List.dropWhile_cons]
    split
    · rename_i hd
      have hd0 : d = '0' := by simpa using hd
      subst hd0
      rw [ih, valDigits_cons]
      simp [digitVal]
    · rfl

theorem firstDiff_neg : ∀ (a b : Str), a.all Char.isDigit = true → b.all Char.isDigit = true →
    a.length = b.length → valDigits a < valDigits b → firstDiff a b < 0 := by
  intro a
  induction a with
  | nil =>
    intro b _ _ hlen hv
    cases b with
    | nil => simp [valDigits] at hv
    | cons d u => simp at hlen
  | cons c t ih =>
    intro b ha hb hlen hv
    cases b with
    | nil => simp at hlen
    | cons d u =>
      rw [List.all_cons, Bool.and_eq_true] at ha hb
      rw [List.length_cons, List.length_cons] at hlen
      have hlen' : t.length = u.length := by omega
      rw [valDigits_cons, valDigits_cons, hlen'] at hv
      by_cases hcd : c = d
      · subst hcd
        rw [firstDiff, if_pos rfl]
        exact ih u ha.2 hb.2 hlen' (by omega)
      · rw [firstDiff, if_neg hcd]
        have hA : 0 < 10 ^ u.length := Nat.pos_pow_of_pos _ (by omega)
        have hvt : valDigits t < 10 ^ u.length := by
          have := val_lt_pow t ha.2
          rwa [hlen'] at this
        have hvu : valDigits u < 10 ^ u.length := val_lt_pow u hb.2
        have h5 : digitVal c * 10 ^ u.length < (digitVal d + 1) * 10 ^ u.length := by
          calc digitVal c * 10 ^ u.length
              ≤ digitVal c * 10 ^ u.length + valDigits t := Nat.le_add_right _ _
            _ < digitVal d * 10 ^ u.length + valDigits u := hv
            _ < digitVal d * 10 ^ u.length + 10 ^ u.length := by omega
            _ = (digitVal d + 1) * 10 ^ u.length := by ring
        have h6 : digitVal c < digitVal d + 1 := Nat.lt_of_mul_lt_mul_right h5
        have h7 : digitVal c ≠ digitVal d := by
          intro hh
          exact hcd (char_eq_of_toNat (by
            have b1 := isDigit_toNat ha.1
            have b2 := isDigit_toNat hb.1
            unfold digitVal at hh
            omega))
        have h8 : c.toNat < d.toNat :=
          (digitVal_lt_of_toNat_lt ha.1 hb.1).mp (by omega)
        omega

theorem cmpDigits_neg (a b : Str) (ha : a.all Char.isDigit = true)
    (hb : b.all Char.isDigit = true)
    (hla : ∀ c t, a = c :: t → c ≠ '0')
    (hv : valDigits a < valDigits b) : cmpDigits a b < 0 := by
  unfold cmpDigits
  by_cases h1 : b.length < a.length
  · exfalso
    cases a with
    | nil => simp at h1
    | cons d t =>
      rw [List.all_cons, Bool.and_eq_true] at ha
      have hd := hla d t rfl
      have h2 := @pow_le_val d t ha.1 hd
      have h3 := val_lt_pow b hb
      have h4 : 10 ^ b.length ≤ 10 ^ t.length := by
        apply Nat.pow_le_pow_right (by omega)
        simp only [List.length_cons] at h1
        omega
      omega
  · rw [if_neg h1]
    by_cases h2 : a.length < b.length
    · rw [if_pos h2]
      omega
    · rw [if_neg h2]
      exact firstDiff_neg a b ha hb (by omega) hv

theorem verrevcmp_digit_phase (a b : Str)
    (hna : headNonDigit a = false) (hnb : headNonDigit b = false)
    (hne : ¬(a = [] ∧ b = [])) :
    verrevcmp a b =
      (let a2 := a.dropWhile (fun c => c == '0')
       let b2 := b.dropWhile (fun c => c == '0')
       let ad := a2.takeWhile Char.isDigit
       let bd := b2.takeWhile Char.isDigit
       if cmpDigits ad bd = 0 then verrevcmp (a2.drop ad.length) (b2.drop bd.length)
       else cmpDigits ad bd) := by
  rw [verrevcmp_step, if_neg hne]
  have hinr : cmpNonDigits a b = .inr (a, b) := by
    rw [cmpNonDigits_step, if_neg (by simp [hna, hnb])]
  rw [hinr]

theorem verrevcmp_nil_plus (t : Str) : verrevcmp [] ('+' :: t) < 0 := by
  rw [verrevcmp_step, if_neg (by simp)]
  have h1 : cmpNonDigits [] ('+' :: t) = .inl (0 - dpkgOrder '+') := by
    have ho : headOrder ('+' :: t) = dpkgOrder '+' := rfl
    rw [cmpNonDigits_step,
      if_pos (show headNonDigit ([] : Str) = true ∨ headNonDigit ('+' :: t) = true from
        Or.inr rfl),
      ho, if_neg (show ¬ headOrder ([] : Str) = dpkgOrder '+' by decide)]
    decide
  rw [h1]
  decide

theorem takeWhile_append_nondigit (w : Str) (c : Char) (t : Str) (hc : c.isDigit = false) :
    ((w ++ c :: t).takeWhile Char.isDigit) = w.takeWhile Char.isDigit := by
  rw [List.takeWhile_append]
  split
  · rename_i hl
    have hwe : w.takeWhile Char.isDigit = w := (List.takeWhile_sublist _).eq_of_length hl
    rw [hwe]
    simp [List.takeWhile_cons, hc]
  · rfl

theorem verrevcmp_append_plus : ∀ (n : Nat) (a t : Str), a.length ≤ n →
    verrevcmp a (a ++ '+' :: t) < 0 := by
  intro n
  induction n with
  | zero =>
    intro a t hn
    have ha : a = [] := by cases a <;> simp_all
    subst ha
    exact verrevcmp_nil_plus t
  | succ n ih =>
    intro a t hn
    cases a with
    | nil => exact verrevcmp_nil_plus t
    | cons c a' =>
      by_cases hc : c.isDigit
      · -- digit head: one digit phase, then induction
        have hc' : (c == '0') = false ∨ c ≠ '0' ∨ True := by simp
        have hndA : headNonDigit (c :: a') = false := by simp [headNonDigit, hc]
        have hndB : headNonDigit ((c :: a') ++ '+' :: t) = false := by
          simp [headNonDigit, hc]
        rw [verrevcmp_digit_phase (c :: a') ((c :: a') ++ '+' :: t) hndA hndB (by simp)]
        have hb2 : ((c :: a') ++ '+' :: t).dropWhile (fun x => x == '0')
            = ((c :: a').dropWhile (fun x => x == '0')) ++ '+' :: t :=
          dropWhile0_append _ _ _ (by decide)
        simp only [hb2]
        have hbd : ((((c :: a').dropWhile (fun x => x == '0')) ++ '+' :: t).takeWhile Char.isDigit)
            = ((c :: a').dropWhile (fun x => x == '0')).takeWhile Char.isDigit :=
          takeWhile_append_nondigit _ _ _ (by decide)
        simp only [hbd, cmpDigits_self, if_pos]
        have hlen : (((c :: a').dropWhile (fun x => x == '0')).takeWhile Char.isDigit).length
            ≤ ((c :: a').dropWhile (fun x => x == '0')).length :=
          (List.takeWhile_sublist _).length_le
        rw [drop_append_le _ _ _ hlen]
        apply ih
        -- length bound
        by_cases h0 : c = '0'
        · subst h0
          have hw : (('0' :: a').dropWhile (fun x => x == '0'))
              = a'.dropWhile (fun x => x == '0') := by
            simp [List.dropWhile_cons]
          rw [hw]
          have h1 : (a'.dropWhile (fun x => x == '0')).length ≤ a'.length :=
            (List.dropWhile_sublist _).length_le
          rw [List.length_drop]
          simp only [List.length_cons] at hn
          omega
        · have hbeq : (c == '0') = false := by simp [h0]
          have hw : ((c :: a').dropWhile (fun x => x == '0')) = c :: a' := by
            simp [List.dropWhile_cons, hbeq]
          rw [hw]
          have htk : ((c :: a').takeWhile Char.isDigit) = c :: a'.takeWhile Char.isDigit := by
            simp [List.takeWhile_cons, hc]
          rw [htk, List.length_drop]
          simp only [List.length_cons] at hn ⊢
          omega
      · -- non-digit head: cancel and recurse
        have hc' : c.isDigit = false := by simpa using hc
        show verrevcmp (c :: a') (c :: (a' ++ '+' :: t)) < 0
        rw [verrevcmp_cons_nondigit c a' _ hc']
        exact ih a' t (by simpa using hn)

theorem nondigit_ne_zero {c : Char} (hc : c.isDigit = false) : (c == '0') = false := by
  rcases Bool.eq_false_or_eq_true (c == '0') with h | h
  · exfalso
    have hz : c = '0' := by simpa using h
    subst hz
    exact absurd hc (by decide)
  · exact h

theorem verrevcmp_append_cancel : ∀ (n : Nat) (Q : Str) (c : Char) (r1 r2 : Str),
    Q.length ≤ n → c.isDigit = false →
    verrevcmp (Q ++ c :: r1) (Q ++ c :: r2) = verrevcmp (c :: r1) (c :: r2) := by
  intro n
  induction n with
  | zero =>
    intro Q c r1 r2 hn hc
    have hQ : Q = [] := by cases Q <;> simp_all
    subst hQ
    rfl
  | succ n ih =>
    intro Q c r1 r2 hn hc
    cases Q with
    | nil => rfl
    | cons q Q' =>
      by_cases hq : q.isDigit
      · -- digit head: one digit phase consumes the shared leading run
        have hc0 : (c == '0') = false := nondigit_ne_zero hc
        have hndA : headNonDigit ((q :: Q') ++ c :: r1) = false := by
          simp [headNonDigit, hq]
        have hndB : headNonDigit ((q :: Q') ++ c :: r2) = false := by
          simp [headNonDigit, hq]
        rw [verrevcmp_digit_phase _ _ hndA hndB (by simp)]
        have ha2 : (((q :: Q') ++ c :: r1).dropWhile (fun x => x == '0'))
            = ((q :: Q').dropWhile (fun x => x == '0')) ++ c :: r1 :=
          dropWhile0_append _ _ _ hc0
        have hb2 : (((q :: Q') ++ c :: r2).dropWhile (fun x => x == '0'))
            = ((q :: Q').dropWhile (fun x => x == '0')) ++ c :: r2 :=
          dropWhile0_append _ _ _ hc0
        simp only [ha2, hb2]
        have had : ((((q :: Q').dropWhile (fun x => x == '0')) ++ c :: r1).takeWhile Char.isDigit)
            = ((q :: Q').dropWhile (fun x => x == '0')).takeWhile Char.isDigit :=
          takeWhile_append_nondigit _ _ _ hc
        have hbd : ((((q :: Q').dropWhile (fun x => x == '0')) ++ c :: r2).takeWhile Char.isDigit)
            = ((q :: Q').dropWhile (fun x => x == '0')).takeWhile Char.isDigit :=
          takeWhile_append_nondigit _ _ _ hc
        simp only [had, hbd, cmpDigits_self, if_pos]
        have hlen : (((q :: Q').dropWhile (fun x => x == '0')).takeWhile Char.isDigit).length
            ≤ ((q :: Q').dropWhile (fun x => x == '0')).length :=
          (List.takeWhile_sublist _).length_le
        rw [drop_append_le _ _ _ hlen, drop_append_le _ _ _ hlen]
        apply ih _ c r1 r2 _ hc
        by_cases h0 : q = '0'
        · subst h0
          have hw : (('0' :: Q').dropWhile (fun x => x == '0'))
              = Q'.dropWhile (fun x => x == '0') := by
            simp [List.dropWhile_cons]
          rw [hw]
          have h1 : (Q'.dropWhile (fun x => x == '0')).length ≤ Q'.length :=
            (List.dropWhile_sublist _).length_le
          rw [List.length_drop]
          simp only [List.length_cons] at hn
          omega
        · have hbeq : (q == '0') = false := by simp [h0]
          have hw : ((q :: Q').dropWhile (fun x => x == '0')) = q :: Q' := by
            simp [List.dropWhile_cons, hbeq]
          rw [hw]
          have htk : ((q :: Q').takeWhile Char.isDigit) = q :: Q'.takeWhile Char.isDigit := by
            simp [List.takeWhile_cons, hq]
          rw [htk, List.length_drop]
          simp only [List.length_cons] at hn ⊢
          omega
      · -- non-digit head: cancel one char
        have hq' : q.isDigit = false := by simpa using hq
        show verrevcmp (q :: (Q' ++ c :: r1)) (q :: (Q' ++ c :: r2)) = _
        rw [verrevcmp_cons_nondigit q _ _ hq']
        exact ih Q' c r1 r2 (by simpa using hn) hc

theorem cmpDigits_nil_lt (c : Char) (u : Str) : cmpDigits [] (c :: u) = -1 := by
  simp [cmpDigits]

theorem snapshot_lt_release (D H W : Str) (d : Char)
    (hd : d.isDigit = true) (hd0 : d ≠ '0') :
    verrevcmp (str "0.0~git" ++ D ++ '.' :: H) (d :: W) < 0 := by
  have hndA : headNonDigit (str "0.0~git" ++ D ++ '.' :: H) = false := rfl
  have hndB : headNonDigit (d :: W) = false := by simp [headNonDigit, hd]
  rw [verrevcmp_digit_phase _ _ hndA hndB (by rintro ⟨-, h⟩; cases h)]
  have hA2 : ((str "0.0~git" ++ D ++ '.' :: H).dropWhile (fun x => x == '0'))
      = str ".0~git" ++ D ++ '.' :: H := rfl
  have hbeq : (d == '0') = false := by simp [hd0]
  have hB2 : ((d :: W).dropWhile (fun x => x == '0')) = d :: W := by
    simp [List.dropWhile_cons, hbeq]
  simp only [hA2, hB2]
  have had : ((str ".0~git" ++ D ++ '.' :: H).takeWhile Char.isDigit) = [] := rfl
  have hbd : ((d :: W).takeWhile Char.isDigit) = d :: W.takeWhile Char.isDigit := by
    simp [List.takeWhile_cons, hd]
  simp only [had, hbd, cmpDigits_nil_lt]
  rw [if_neg (by decide)]
  decide

theorem digitrun_plus_lt (z y t : Str)
    (hz : z.all Char.isDigit = true) (hzne : z ≠ [])
    (hy : y.all Char.isDigit = true) (hv : valDigits z < valDigits y) :
    verrevcmp (z ++ '+' :: t) y < 0 := by
  obtain ⟨f, y', rfl⟩ : ∃ f y', y = f :: y' := by
    cases y with
    | nil => exact absurd hv (by simp [valDigits])
    | cons f y' => exact ⟨f, y', rfl⟩
  obtain ⟨d, z', rfl⟩ : ∃ d z', z = d :: z' := by
    cases z with
    | nil => exact absurd rfl hzne
    | cons d z' => exact ⟨d, z', rfl⟩
  have hdd : d.isDigit = true := by
    rw [List.all_cons, Bool.and_eq_true] at hz
    exact hz.1
  have hff : f.isDigit = true := by
    rw [List.all_cons, Bool.and_eq_true] at hy
    exact hy.1
  have hndA : headNonDigit ((d :: z') ++ '+' :: t) = false := by simp [headNonDigit, hdd]
  have hndB : headNonDigit (f :: y') = false := by simp [headNonDigit, hff]
  rw [verrevcmp_digit_phase _ _ hndA hndB (by rintro ⟨h, -⟩; cases h)]
  have hA2 : (((d :: z') ++ '+' :: t).dropWhile (fun x => x == '0'))
      = ((d :: z').dropWhile (fun x => x == '0')) ++ '+' :: t :=
    dropWhile0_append _ _ _ (by decide)
  simp only [hA2]
  have hwall : ((d :: z').dropWhile (fun x => x == '0')).all Char.isDigit = true :=
    all_of_sublist (List.dropWhile_sublist _) hz
  have huall : ((f :: y').dropWhile (fun x => x == '0')).all Char.isDigit = true :=
    all_of_sublist (List.dropWhile_sublist _) hy
  have hvw : valDigits ((d :: z').dropWhile (fun x => x == '0')) = valDigits (d :: z') :=
    val_dropWhile0 _
  have hvu : valDigits ((f :: y').dropWhile (fun x => x == '0')) = valDigits (f :: y') :=
    val_dropWhile0 _
  have hune : ((f :: y').dropWhile (fun x => x == '0')) ≠ [] := by
    intro h
    rw [h, show valDigits ([] : Str) = 0 from rfl] at hvu
    omega
  obtain ⟨g, u', hu⟩ : ∃ g u', ((f :: y').dropWhile (fun x => x == '0')) = g :: u' := by
    cases hc : ((f :: y').dropWhile (fun x => x == '0')) with
    | nil => exact absurd hc hune
    | cons g u' => exact ⟨g, u', rfl⟩
  by_cases hw0 : ((d :: z').dropWhile (fun x => x == '0')) = []
  case pos =>
    -- the left run is all zeros: empty digit run vs a non-empty one
    simp only [hw0, List.nil_append]
    have htp : (('+' :: t).takeWhile Char.isDigit) = [] := by
      simp [List.takeWhile_cons, show Char.isDigit '+' = false from rfl]
    have hbd : (((f :: y').dropWhile (fun x => x == '0')).takeWhile Char.isDigit)
        = g :: u'.takeWhile Char.isDigit := by
      rw [hu]
      have hgall := huall
      rw [hu, List.all_cons, Bool.and_eq_true] at hgall
      simp [List.takeWhile_cons, hgall.1]
    simp only [htp, hbd, cmpDigits_nil_lt]
    rw [if_neg (by decide)]
    decide
  case neg =>
    obtain ⟨e, w', hw⟩ : ∃ e w',
        ((d :: z').dropWhile (fun x => x == '0')) = e :: w' := by
      cases hc : ((d :: z').dropWhile (fun x => x == '0')) with
      | nil => exact absurd hc hw0
      | cons e w' => exact ⟨e, w', rfl⟩
    have he0 : (e == '0') = false := by
      have hx := @dropWhile_head_not (fun x => x == '0') (d :: z') e w' hw
      simpa using hx
    have hadw : ((((d :: z').dropWhile (fun x => x == '0')) ++ '+' :: t).takeWhile Char.isDigit)
        = (d :: z').dropWhile (fun x => x == '0') := by
      rw [takeWhile_append_nondigit _ _ _ (by decide)]
      exact takeWhile_all hwall
    have hbdw : (((f :: y').dropWhile (fun x => x == '0')).takeWhile Char.isDigit)
        = (f :: y').dropWhile (fun x => x == '0') :=
      takeWhile_all huall
    have hlt : cmpDigits ((d :: z').dropWhile (fun x => x == '0'))
        ((f :: y').dropWhile (fun x => x == '0')) < 0 := by
      apply cmpDigits_neg _ _ hwall huall
      · intro c t0 hct
        rw [hw] at hct
        injection hct with h1 _
        subst h1
        intro hcz
        subst hcz
        exact absurd he0 (by decide)
      · rw [hvw, hvu]
        exact hv
    simp only [hadw, hbdw]
    rw [if_neg (by omega)]
    exact hlt

/-- A repository with the tag `v7.9` exactly at HEAD (the release after
`v7.8`). -/
def repoTagV79 : GitRepo :=
  { describeLatestTag := some (str "v7.9\n")
    revListCount := fun _ => some (str "0\n")
    logCommitTime := some (str "1704067200\n")
    describeLong := some (str "v7.9-0-gbeef12\n")
    revParseShort := some (str "beef12\n") }

/-- A repository with the tag `v0` exactly at HEAD: its release version is
`0`, which dpkg sorts below the no-tag snapshot `0.0~git...`. -/
def repoTagV0 : GitRepo :=
  { describeLatestTag := some (str "v0\n")
    revListCount := fun _ => some (str "0\n")
    logCommitTime := some (str "1690000000\n")
    describeLong := some (str "v0-0-gabc123\n")
    revParseShort := some (str "abc123\n") }

/-- C7 counterexample: the claim says the no-tag snapshot base
`0.0~git...` compares below ANY release.  The repository tagged `v0`
yields the release version `0`, the tagless repository yields the
snapshot `0.0~git20231114.abc123`, and dpkg's verrevcmp sorts the
snapshot ABOVE that release (the digit run `0` strips to the empty run
on both sides, then `.` (weight 302) beats end-of-string (weight 0)). -/
theorem C7_counterexample :
    (pkgVersionFromGit repoTagV0 u0 false).toOption.map (fun p => p.1) = some (str "0")
    ∧ (pkgVersionFromGit repoNoTags u0 false).toOption.map (fun p => p.1)
        = some (str "0.0~git20231114.abc123")
    ∧ 0 < verrevcmp (str "0.0~git20231114.abc123") (str "0") := by
  refine ⟨by decide, by decide, by decide⟩

/-- C7 (amended): versions produced by pkgVersionFromGit preserve
chronological ordering under dpkg comparison in these senses: (i) any
release version V sorts below the snapshot V ++ "+..." built from it when
it is superseded; (ii) the no-tag snapshot 0.0~git{D}.{H} sorts below any
release version whose first character is a nonzero digit (NOT below every
release: the release "0" from tag v0 sorts below it, see the
counterexample); (iii) the snapshot of a release Q.z sorts below the next
release Q.y when the final numeric component grows (valDigits z <
valDigits y).  Each version string is constrained to be an actual
pkgVersionFromGit output. -/
theorem C7_version_ordering
    (r1 r2 r3 r4 r5 : GitRepo) (w1 w2 w3 w4 w5 : Upstream) (f1 f2 f3 f4 f5 : Bool)
    (V t D H W Q z y s : Str) (d : Char)
    (h1 : (pkgVersionFromGit r1 w1 f1).toOption.map (fun p => p.1) = some V)
    (h2 : (pkgVersionFromGit r2 w2 f2).toOption.map (fun p => p.1) = some (V ++ '+' :: t))
    (h3 : (pkgVersionFromGit r3 w3 f3).toOption.map (fun p => p.1)
        = some (str "0.0~git" ++ D ++ '.' :: H))
    (h4 : (pkgVersionFromGit r4 w4 f4).toOption.map (fun p => p.1) = some (d :: W))
    (hd : d.isDigit = true) (hd0 : d ≠ '0')
    (h5 : (pkgVersionFromGit r5 w5 f5).toOption.map (fun p => p.1) = some (Q ++ '.' :: y))
    (h2x : (pkgVersionFromGit r2 w2 f2).toOption.map (fun p => p.1)
        = some ((Q ++ '.' :: z) ++ '+' :: s))
    (hz : z.all Char.isDigit = true) (hzne : z ≠ [])
    (hy : y.all Char.isDigit = true) (hv : valDigits z < valDigits y) :
    verrevcmp V (V ++ '+' :: t) < 0
    ∧ verrevcmp (str "0.0~git" ++ D ++ '.' :: H) (d :: W) < 0
    ∧ verrevcmp ((Q ++ '.' :: z) ++ '+' :: s) (Q ++ '.' :: y) < 0 := by
  refine ⟨verrevcmp_append_plus V.length V t (le_refl _),
    snapshot_lt_release D H W d hd hd0, ?_⟩
  have ha : (Q ++ '.' :: z) ++ '+' :: s = Q ++ '.' :: (z ++ '+' :: s) := by
    rw [List.append_assoc]
    rfl
  rw [ha, verrevcmp_append_cancel Q.length Q '.' _ _ (le_refl _) (by decide),
    verrevcmp_cons_nondigit '.' _ _ (by decide)]
  exact digitrun_plus_lt z y s hz hzne hy hv

/-- Witness for C7_version_ordering: the v7.8 repository (release 7.8 and,
under force-prerelease, snapshot 7.8+git20231114.deadbe), the tagless
repository (snapshot 0.0~git20231114.abc123) and the v7.9 repository
(release 7.9) instantiate all three orderings. -/
theorem C7_version_ordering_witness :
    verrevcmp (str "7.8") (str "7.8" ++ '+' :: str "git20231114.deadbe") < 0
    ∧ verrevcmp (str "0.0~git" ++ str "20231114" ++ '.' :: str "abc123") ('7' :: str ".8") < 0
    ∧ verrevcmp ((str "7" ++ '.' :: str "8") ++ '+' :: str "git20231114.deadbe")
        (str "7" ++ '.' :: str "9") < 0 :=
  C7_version_ordering repoAheadOfTag repoAheadOfTag repoNoTags repoAheadOfTag repoTagV79
    u0 u0 u0 u0 u0 false true false false false
    (str "7.8") (str "git20231114.deadbe") (str "20231114") (str "abc123") (str ".8")
    (str "7") (str "8") (str "9") (str "git20231114.deadbe") '7'
    (by decide) (by decide) (by decide) (by decide) (by decide) (by decide)
    (by decide) (by decide) (by decide) (by decide) (by decide) (by decide)
